import Mathlib

/-!
Verification of the tile-based parallel circle rasterizer of `paralela/opt/src/render.cpp`
(`draw_circle_clipped_to_tile`, `render_circles_tiled_omp`).

Modelling choices:
* C++ `int` values (coordinates, radii, tile indices) are `Int`; pixel colors are `Nat`
  (packed 32-bit words, never arithmetically manipulated by the rasterizer).
* The framebuffer's flat pixel array `fb.pix[(size_t)y * fb.W + x]` is a total function
  `Int → Nat` indexed by the flat index `y * W + x`, exactly as the source computes it.
* C++ truncating division `/` on `int` is `Int.tdiv`; C++ `%` is `Int.tmod`.
* The source computes `dx = (int)std::floor(std::sqrt((double)r*r - (double)dy*dy))` on a
  nonnegative integer argument (the loop bounds guarantee `dy*dy ≤ r*r`); for every radius
  the program can hold (|r| < 2^26) the double sqrt of an exact integer floors to the
  integer square root, which we model with `isqrt`.
* `std::lround` on the particle's float position happens at the boundary of the core; the
  embedding takes the already-rounded integer centers as input, as the spec's claims do.
* The OpenMP taskloop dispatches one task per tile over disjoint pixel regions; it is
  modelled by the sequential fold over tile ids (the source's own `#else` fallback), and
  order-independence over tile permutations is proved as a theorem.
-/
set_option maxRecDepth 100000

/-- Integer square root, `Nat.findGreatest` form so that it reduces in the kernel.
Models `(int)std::floor(std::sqrt((double)n))` for exact integer `n`. -/
def isqrt (n : Nat) : Nat := Nat.findGreatest (fun k => k * k ≤ n) n

/-- The inclusive integer range `[lo, hi]` as a list (the values a C `for` loop
`for (v = lo; v <= hi; ++v)` runs through). -/
def intRange (lo hi : Int) : List Int :=
  List.map (fun k : Nat => lo + (k : Int)) (List.range (hi + 1 - lo).toNat)

/-- The framebuffer: width, height and the flat pixel store (`fb.pix` in the source),
addressed by flat index `y * W + x`. -/
structure Framebuffer where
  W : Int
  H : Int
  pix : Int → Nat

/-- A single raw pixel store `fb.pix[i] = c` (the body of the fill loop's write). -/
def setFlat (fb : Framebuffer) (i : Int) (c : Nat) : Framebuffer :=
  { fb with pix := fun j => if j = i then c else fb.pix j }

/-- The inner fill loop `for (xx = xx0; xx <= xx1; ++xx) fb.pix[row + xx] = color;`,
by iteration count (`n` is the number of remaining iterations). -/
def fillSpanN (fb : Framebuffer) (base : Int) (c : Nat) (xx0 : Int) : Nat → Framebuffer
  | 0 => fb
  | n + 1 => fillSpanN (setFlat fb (base + xx0) c) base c (xx0 + 1) n

/-- The inner fill loop with its C bounds `xx0 ≤ xx ≤ xx1`. -/
def fillSpan (fb : Framebuffer) (base : Int) (c : Nat) (xx0 xx1 : Int) : Framebuffer :=
  fillSpanN fb base c xx0 (xx1 + 1 - xx0).toNat

/-- The per-row half-width `dx = (int)std::floor(std::sqrt((double)r*r - (double)dy*dy))`
with `dy = yy - cy` (the loop bounds keep the radicand nonnegative). -/
def dxAt (r cy yy : Int) : Int := (isqrt ((r * r - (yy - cy) * (yy - cy)).toNat) : Nat)

/-- The scanline loop of `draw_circle_clipped_to_tile`, by remaining iteration count:
each row `yy` fills `fb.pix[yy*fb.W + xx]` for `xx` in
`[max(cx-dx, x0), min(cx+dx, x1-1)]`. -/
def drawRowsN (cx cy r : Int) (c : Nat) (x0 x1 : Int) : Nat → Framebuffer → Int → Framebuffer
  | 0, fb, _ => fb
  | n + 1, fb, yy =>
      drawRowsN cx cy r c x0 x1 n
        (fillSpan fb (yy * fb.W) c (max (cx - dxAt r cy yy) x0) (min (cx + dxAt r cy yy) (x1 - 1)))
        (yy + 1)

/-- `draw_circle_clipped_to_tile(fb, cx, cy, r, color, x0, y0, x1, y1)`: scanline fill of
the circle clipped to the tile rectangle `[x0,x1) × [y0,y1)`, rows
`yy = max(cy-r, y0) .. min(cy+r, y1-1)`. -/
def draw_circle_clipped_to_tile (fb : Framebuffer) (cx cy r : Int) (color : Nat)
    (x0 y0 x1 y1 : Int) : Framebuffer :=
  drawRowsN cx cy r color x0 x1
    (min (cy + r) (y1 - 1) + 1 - max (cy - r) y0).toNat fb (max (cy - r) y0)

/-- Does the row-`yy` span of the circle (clipped to `[x0, x1-1]`) write flat index `i`? -/
def rowCovers (W cx cy r x0 x1 yy i : Int) : Bool :=
  decide (yy * W + max (cx - dxAt r cy yy) x0 ≤ i ∧
          i ≤ yy * W + min (cx + dxAt r cy yy) (x1 - 1))

/-- Do any of the `n` rows starting at `yy` write flat index `i`? -/
def rowsCover (W cx cy r x0 x1 : Int) : Nat → Int → Int → Bool
  | 0, _, _ => false
  | n + 1, yy, i => rowCovers W cx cy r x0 x1 yy i || rowsCover W cx cy r x0 x1 n (yy + 1) i

/-- Does `draw_circle_clipped_to_tile` with these arguments write flat index `i`? -/
def circleCovers (W cx cy r x0 y0 x1 y1 i : Int) : Bool :=
  rowsCover W cx cy r x0 x1
    (min (cy + r) (y1 - 1) + 1 - max (cy - r) y0).toNat (max (cy - r) y0) i

/-- Column-oriented particle store (`ParticlesSOA`); positions are the already-rounded
integer centers (`std::lround` is applied at the boundary of the core). -/
structure ParticlesSOA where
  x : List Int
  y : List Int
  r : List Int
  color : List Nat

/-- `P.n`, the particle count. -/
def ParticlesSOA.n (P : ParticlesSOA) : Nat := P.x.length

def px (P : ParticlesSOA) (i : Nat) : Int := P.x.getD i 0

def py (P : ParticlesSOA) (i : Nat) : Int := P.y.getD i 0

def pr (P : ParticlesSOA) (i : Nat) : Int := P.r.getD i 0

def pcolor (P : ParticlesSOA) (i : Nat) : Nat := P.color.getD i 0

/-- `constexpr int TILE = 32` from the source. -/
def TILE : Int := 32

/-- `tiles_x = (W + TILE - 1) / TILE` (C truncating division), generalized over the
tile edge `T`; `tiles_y` is the same formula on `H`. -/
def tilesX (T W : Int) : Int := Int.tdiv (W + T - 1) T

/-- `min_tx = std::max(0, (cx - r) / TILE)` of the binning loop (C truncating division). -/
def minTileIdx (T c r : Int) : Int := max 0 (Int.tdiv (c - r) T)

/-- `max_tx = std::min(tiles_x - 1, (cx + r) / TILE)` of the binning loop. -/
def maxTileIdx (T L c r : Int) : Int := min (tilesX T L - 1) (Int.tdiv (c + r) T)

/-- The linear tile ids `ty * tiles_x + tx` the binning double loop pushes one particle
index into, in loop order. -/
def binBoxTids (T W H cx cy r : Int) : List Nat :=
  (intRange (minTileIdx T cy r) (maxTileIdx T H cy r)).flatMap fun ty =>
    (intRange (minTileIdx T cx r) (maxTileIdx T W cx r)).map fun tx =>
      (ty * tilesX T W + tx).toNat

/-- `bins[tid].push_back(i)`. -/
def pushTid (bins : Nat → List Nat) (tid i : Nat) : Nat → List Nat :=
  fun t => if t = tid then bins t ++ [i] else bins t

/-- The binning pass of `render_circles_tiled_omp`: for `i = 0 .. P.n-1`, push `i` into
the bin of every tile of its clamped bounding box. -/
def buildBins (T : Int) (P : ParticlesSOA) (W H : Int) : Nat → List Nat :=
  (List.range P.n).foldl
    (fun bins i =>
      (binBoxTids T W H (px P i) (py P i) (pr P i)).foldl (fun b tid => pushTid b tid i) bins)
    fun _ => []

/-- `tx = tid % tiles_x` (C `%` on the nonnegative task id). -/
def tileTx (T W : Int) (tid : Nat) : Int := Int.tmod (tid : Int) (tilesX T W)

/-- `ty = tid / tiles_x`. -/
def tileTy (T W : Int) (tid : Nat) : Int := Int.tdiv (tid : Int) (tilesX T W)

/-- `x0 = tx * TILE`. -/
def tileX0 (T W : Int) (tid : Nat) : Int := tileTx T W tid * T

/-- `x1 = std::min(x0 + TILE, fb.W)`. -/
def tileX1 (T W : Int) (tid : Nat) : Int := min (tileX0 T W tid + T) W

/-- `y0 = ty * TILE`. -/
def tileY0 (T W : Int) (tid : Nat) : Int := tileTy T W tid * T

/-- `y1 = std::min(y0 + TILE, fb.H)`. -/
def tileY1 (T W H : Int) (tid : Nat) : Int := min (tileY0 T W tid + T) H

/-- The per-tile rasterization loop: draw every particle of the tile's bin, in bin
order, clipped to the tile rectangle. -/
def renderTile (P : ParticlesSOA) (x0 y0 x1 y1 : Int) (fb : Framebuffer)
    (bin : List Nat) : Framebuffer :=
  bin.foldl (fun b j =>
    draw_circle_clipped_to_tile b (px P j) (py P j) (pr P j) (pcolor P j) x0 y0 x1 y1) fb

/-- One iteration of the tile loop (`tid`-th task of the taskloop). -/
def tileStep (T : Int) (P : ParticlesSOA) (W H : Int) (bins : Nat → List Nat)
    (fb : Framebuffer) (tid : Nat) : Framebuffer :=
  renderTile P (tileX0 T W tid) (tileY0 T W tid) (tileX1 T W tid) (tileY1 T W H tid)
    fb (bins tid)

/-- `total_tiles = tiles_x * tiles_y`. -/
def totalTiles (T W H : Int) : Nat := (tilesX T W * tilesX T H).toNat

/-- The tile dispatch of `render_circles_tiled_omp`, processing tiles in the order given
(the taskloop may complete tiles in any order; disjointness makes them commute). -/
def renderOrder (T : Int) (P : ParticlesSOA) (fb : Framebuffer) (order : List Nat) :
    Framebuffer :=
  order.foldl (tileStep T P fb.W fb.H (buildBins T P fb.W fb.H)) fb

/-- The whole pass with tile edge `T`: binning followed by per-tile rasterization in
ascending tile-id order. -/
def render_tiled (T : Int) (P : ParticlesSOA) (fb : Framebuffer) : Framebuffer :=
  renderOrder T P fb (List.range (totalTiles T fb.W fb.H))

/-- `render_circles_tiled_omp(P, fb)` from the source (`TILE = 32`). -/
def render_circles_tiled_omp (P : ParticlesSOA) (fb : Framebuffer) : Framebuffer :=
  render_tiled TILE P fb

/-- Last-write-wins paint of one bin at flat index `i` over an accumulator. -/
def binPaint (P : ParticlesSOA) (W x0 y0 x1 y1 : Int) (bin : List Nat)
    (acc : Option Nat) (i : Int) : Option Nat :=
  bin.foldl (fun a j =>
    if circleCovers W (px P j) (py P j) (pr P j) x0 y0 x1 y1 i then some (pcolor P j) else a)
    acc

/-- First-some-wins combination used to split a paint fold. -/
def orElseO (o a : Option Nat) : Option Nat :=
  match o with
  | some c => some c
  | none => a

/-- The paint (override) view of the tile fold: the color the pass leaves at flat index
`i`, or `none` when no binned particle's clipped span writes `i`. -/
def paintFold (T : Int) (P : ParticlesSOA) (W H : Int) (bins : Nat → List Nat)
    (order : List Nat) (acc : Option Nat) (i : Int) : Option Nat :=
  order.foldl (fun a tid =>
    binPaint P W (tileX0 T W tid) (tileY0 T W tid) (tileX1 T W tid) (tileY1 T W H tid)
      (bins tid) a i) acc

/-- The color (if any) the whole pass paints at flat index `i`; depends only on the
particles and the framebuffer geometry, not on the incoming pixel contents. -/
def renderPaint (T : Int) (P : ParticlesSOA) (W H : Int) (i : Int) : Option Nat :=
  paintFold T P W H (buildBins T P W H) (List.range (totalTiles T W H)) none i

/-- The linear id of the tile containing pixel `(x, y)`. -/
def pixTid (T W : Int) (x y : Int) : Nat := ((y / T) * tilesX T W + x / T).toNat

/-- Unclipped per-pixel coverage: the scanline condition of the fill with no tile clip
binding (row within `[cy-r, cy+r]`, column within the row's half-width). -/
def coverPix (cx cy r x y : Int) : Bool :=
  decide (cy - r ≤ y ∧ y ≤ cy + r ∧ cx - dxAt r cy y ≤ x ∧ x ≤ cx + dxAt r cy y)

def gPaintAux (P : ParticlesSOA) (x y : Int) (l : List Nat) (acc : Option Nat) :
    Option Nat :=
  l.foldl (fun a j =>
    if coverPix (px P j) (py P j) (pr P j) x y then some (pcolor P j) else a) acc

/-- The tile-free reference paint: the color of the last (highest-index) particle whose
disc covers pixel `(x, y)`, if any. -/
def globalPaint (P : ParticlesSOA) (x y : Int) : Option Nat :=
  gPaintAux P x y (List.range P.n) none

/-- The flat indices one row span writes. -/
def spanIdx (base xx0 xx1 : Int) : List Int :=
  List.map (fun xx => base + xx) (intRange xx0 xx1)

/-- The flat indices `draw_circle_clipped_to_tile` writes, row by row. -/
def circleTrace (W cx cy r x0 y0 x1 y1 : Int) : List Int :=
  (intRange (max (cy - r) y0) (min (cy + r) (y1 - 1))).flatMap fun yy =>
    spanIdx (yy * W) (max (cx - dxAt r cy yy) x0) (min (cx + dxAt r cy yy) (x1 - 1))

/-- The flat indices one tile's rasterization writes (its bin, in order). -/
def tileTrace (P : ParticlesSOA) (W x0 y0 x1 y1 : Int) (bin : List Nat) : List Int :=
  bin.flatMap fun j => circleTrace W (px P j) (py P j) (pr P j) x0 y0 x1 y1

/-- Every flat index the whole pass stores to (all tiles, all binned particles). -/
def renderTrace (T : Int) (P : ParticlesSOA) (W H : Int) : List Int :=
  (List.range (totalTiles T W H)).flatMap fun tid =>
    tileTrace P W (tileX0 T W tid) (tileY0 T W tid) (tileX1 T W tid) (tileY1 T W H tid)
      (buildBins T P W H tid)

/-- Removing particle `k` from the column store (all four columns). -/
def ParticlesSOA.eraseIdx (P : ParticlesSOA) (k : Nat) : ParticlesSOA :=
  ⟨P.x.eraseIdx k, P.y.eraseIdx k, P.r.eraseIdx k, P.color.eraseIdx k⟩

/-- 64×64 framebuffer cleared to `0x00000000`. -/
def fb64 : Framebuffer := ⟨64, 64, fun _ => 0⟩

/-- 64×32 framebuffer cleared to `0x00000000`. -/
def fb6432 : Framebuffer := ⟨64, 32, fun _ => 0⟩

/-- 33×33 framebuffer (tile grid 2×2 with clipped last row/column), cleared to `7`. -/
def fb33 : Framebuffer := ⟨33, 33, fun _ => 7⟩

/-- One particle fully left of the framebuffer (center `(-5, 5)`, radius `2`). -/
def particleC1 : ParticlesSOA := ⟨[-5], [5], [2], [7]⟩

/-- Particles A `(10,10) r=5` red `0xFFFF0000` then B `(12,12) r=5` blue `0xFF0000FF`. -/
def particlesAB : ParticlesSOA := ⟨[10, 12], [10, 12], [5, 5], [4294901760, 4278190335]⟩

/-- The same two particles with insertion order swapped (B first, then A). -/
def particlesBA : ParticlesSOA := ⟨[12, 10], [12, 10], [5, 5], [4278190335, 4294901760]⟩

/-- One particle at `(32,32)` with radius `40`, color `0xFFFFFFFF`. -/
def particleC8 : ParticlesSOA := ⟨[32], [32], [40], [4294967295]⟩

/-- One particle at `(31,16)` with radius `10`, straddling the `x = 32` tile seam. -/
def particleSeam : ParticlesSOA := ⟨[31], [16], [10], [7]⟩

/-- One small on-screen particle at `(10,10)` with radius `2`. -/
def particleSmall : ParticlesSOA := ⟨[10], [10], [2], [5]⟩

/-- Off-screen particle followed by an on-screen one (for particle removal). -/
def particlesC6 : ParticlesSOA := ⟨[-5, 10], [5, 10], [2, 2], [7, 5]⟩

/-- The empty particle store. -/
def particlesNone : ParticlesSOA := ⟨[], [], [], []⟩

theorem le_isqrt_iff (m t : Nat) : m ≤ isqrt t ↔ m * m ≤ t := by
  constructor
  · intro h
    have h2 : isqrt t * isqrt t ≤ t :=
      Nat.findGreatest_spec (P := fun k => k * k ≤ t) (Nat.zero_le t) (by simp)
    exact le_trans (Nat.mul_le_mul h h) h2
  · intro h
    rcases Nat.eq_zero_or_pos m with hm | hm
    · simp [hm]
    · exact Nat.le_findGreatest (le_trans (Nat.le_mul_of_pos_left m hm) h) h

theorem isqrt_le {t k : Nat} (h : t ≤ k * k) : isqrt t ≤ k := by
  by_contra hc
  have h1 : k + 1 ≤ isqrt t := by omega
  have h2 : (k + 1) * (k + 1) ≤ t := (le_isqrt_iff (k + 1) t).mp h1
  nlinarith

theorem mem_intRange {lo hi a : Int} : a ∈ intRange lo hi ↔ lo ≤ a ∧ a ≤ hi := by
  unfold intRange
  constructor
  · intro h
    obtain ⟨k, hk, hka⟩ := List.mem_map.mp h
    have hk2 := List.mem_range.mp hk
    omega
  · intro h
    refine List.mem_map.mpr ⟨(a - lo).toNat, List.mem_range.mpr ?_, ?_⟩ <;> omega

theorem intRange_nodup (lo hi : Int) : (intRange lo hi).Nodup := by
  unfold intRange
  refine List.Nodup.map ?_ (List.nodup_range _)
  intro a b hab
  have h : lo + (a : Int) = lo + (b : Int) := hab
  omega

@[simp] theorem setFlat_W (fb : Framebuffer) (i : Int) (c : Nat) : (setFlat fb i c).W = fb.W := rfl

@[simp] theorem setFlat_H (fb : Framebuffer) (i : Int) (c : Nat) : (setFlat fb i c).H = fb.H := rfl

theorem fillSpanN_W (base : Int) (c : Nat) :
    ∀ (n : Nat) (fb : Framebuffer) (xx0 : Int), (fillSpanN fb base c xx0 n).W = fb.W
  | 0, _, _ => rfl
  | n + 1, fb, xx0 => fillSpanN_W base c n (setFlat fb (base + xx0) c) (xx0 + 1)

theorem fillSpanN_H (base : Int) (c : Nat) :
    ∀ (n : Nat) (fb : Framebuffer) (xx0 : Int), (fillSpanN fb base c xx0 n).H = fb.H
  | 0, _, _ => rfl
  | n + 1, fb, xx0 => fillSpanN_H base c n (setFlat fb (base + xx0) c) (xx0 + 1)

@[simp] theorem fillSpan_W (fb : Framebuffer) (base : Int) (c : Nat) (xx0 xx1 : Int) :
    (fillSpan fb base c xx0 xx1).W = fb.W := fillSpanN_W base c _ fb xx0

@[simp] theorem fillSpan_H (fb : Framebuffer) (base : Int) (c : Nat) (xx0 xx1 : Int) :
    (fillSpan fb base c xx0 xx1).H = fb.H := fillSpanN_H base c _ fb xx0

theorem fillSpanN_pix (base : Int) (c : Nat) (i : Int) :
    ∀ (n : Nat) (fb : Framebuffer) (xx0 : Int),
      (fillSpanN fb base c xx0 n).pix i =
        if base + xx0 ≤ i ∧ i < base + xx0 + (n : Int) then c else fb.pix i
  | 0, fb, xx0 => by
    simp only [fillSpanN]
    rw [if_neg]
    omega
  | n + 1, fb, xx0 => by
    simp only [fillSpanN]
    rw [fillSpanN_pix base c i n (setFlat fb (base + xx0) c) (xx0 + 1)]
    simp only [setFlat]
    by_cases h1 : base + (xx0 + 1) ≤ i ∧ i < base + (xx0 + 1) + (n : Int)
    · rw [if_pos h1, if_pos (by omega)]
    · rw [if_neg h1]
      by_cases h2 : i = base + xx0
      · rw [if_pos h2, if_pos (by omega)]
      · rw [if_neg h2, if_neg (by omega)]

theorem fillSpan_pix (fb : Framebuffer) (base : Int) (c : Nat) (xx0 xx1 i : Int) :
    (fillSpan fb base c xx0 xx1).pix i =
      if base + xx0 ≤ i ∧ i ≤ base + xx1 then c else fb.pix i := by
  unfold fillSpan
  rw [fillSpanN_pix]
  by_cases h : base + xx0 ≤ i ∧ i ≤ base + xx1
  · rw [if_pos (by omega), if_pos h]
  · rw [if_neg (by omega), if_neg h]

theorem drawRowsN_W (cx cy r : Int) (c : Nat) (x0 x1 : Int) :
    ∀ (n : Nat) (fb : Framebuffer) (yy : Int), (drawRowsN cx cy r c x0 x1 n fb yy).W = fb.W
  | 0, _, _ => rfl
  | n + 1, fb, yy => by
    simp only [drawRowsN]
    rw [drawRowsN_W cx cy r c x0 x1 n, fillSpan_W]

theorem drawRowsN_H (cx cy r : Int) (c : Nat) (x0 x1 : Int) :
    ∀ (n : Nat) (fb : Framebuffer) (yy : Int), (drawRowsN cx cy r c x0 x1 n fb yy).H = fb.H
  | 0, _, _ => rfl
  | n + 1, fb, yy => by
    simp only [drawRowsN]
    rw [drawRowsN_H cx cy r c x0 x1 n, fillSpan_H]

theorem drawRowsN_pix (cx cy r : Int) (c : Nat) (x0 x1 i : Int) :
    ∀ (n : Nat) (fb : Framebuffer) (yy : Int),
      (drawRowsN cx cy r c x0 x1 n fb yy).pix i =
        if rowsCover fb.W cx cy r x0 x1 n yy i then c else fb.pix i
  | 0, fb, yy => by simp [drawRowsN, rowsCover]
  | n + 1, fb, yy => by
    simp only [drawRowsN, rowsCover]
    rw [drawRowsN_pix cx cy r c x0 x1 i n _ (yy + 1), fillSpan_W, fillSpan_pix]
    by_cases hD : yy * fb.W + max (cx - dxAt r cy yy) x0 ≤ i ∧
        i ≤ yy * fb.W + min (cx + dxAt r cy yy) (x1 - 1)
    · simp [rowCovers, hD]
    · simp [rowCovers, hD]

@[simp] theorem draw_circle_W (fb : Framebuffer) (cx cy r : Int) (color : Nat) (x0 y0 x1 y1 : Int) :
    (draw_circle_clipped_to_tile fb cx cy r color x0 y0 x1 y1).W = fb.W :=
  drawRowsN_W _ _ _ _ _ _ _ _ _

@[simp] theorem draw_circle_H (fb : Framebuffer) (cx cy r : Int) (color : Nat) (x0 y0 x1 y1 : Int) :
    (draw_circle_clipped_to_tile fb cx cy r color x0 y0 x1 y1).H = fb.H :=
  drawRowsN_H _ _ _ _ _ _ _ _ _

theorem draw_circle_pix (fb : Framebuffer) (cx cy r : Int) (color : Nat) (x0 y0 x1 y1 i : Int) :
    (draw_circle_clipped_to_tile fb cx cy r color x0 y0 x1 y1).pix i =
      if circleCovers fb.W cx cy r x0 y0 x1 y1 i then color else fb.pix i :=
  drawRowsN_pix _ _ _ _ _ _ _ _ _ _

theorem rowsCover_iff (W cx cy r x0 x1 : Int) :
    ∀ (n : Nat) (yy i : Int),
      rowsCover W cx cy r x0 x1 n yy i = true ↔
        ∃ k : Nat, k < n ∧ rowCovers W cx cy r x0 x1 (yy + k) i = true
  | 0, yy, i => by simp [rowsCover]
  | n + 1, yy, i => by
    simp only [rowsCover, Bool.or_eq_true]
    rw [rowsCover_iff W cx cy r x0 x1 n (yy + 1) i]
    constructor
    · rintro (h | ⟨k, hk, hc⟩)
      · exact ⟨0, by omega, by simpa using h⟩
      · exact ⟨k + 1, by omega, by rw [show yy + (k + 1 : Nat) = yy + 1 + k by omega]; exact hc⟩
    · rintro ⟨k, hk, hc⟩
      rcases Nat.eq_zero_or_pos k with hk0 | hk0
      · subst hk0; left; simpa using hc
      · right
        refine ⟨k - 1, by omega, ?_⟩
        rw [show yy + 1 + (k - 1 : Nat) = yy + k by omega]
        exact hc

theorem circleCovers_iff (W cx cy r x0 y0 x1 y1 i : Int) :
    circleCovers W cx cy r x0 y0 x1 y1 i = true ↔
      ∃ yy : Int, max (cy - r) y0 ≤ yy ∧ yy ≤ min (cy + r) (y1 - 1) ∧
        rowCovers W cx cy r x0 x1 yy i = true := by
  unfold circleCovers
  rw [rowsCover_iff]
  constructor
  · rintro ⟨k, hk, hc⟩
    exact ⟨max (cy - r) y0 + k, by omega, by omega, hc⟩
  · rintro ⟨yy, h1, h2, hc⟩
    refine ⟨(yy - max (cy - r) y0).toNat, by omega, ?_⟩
    rw [show max (cy - r) y0 + ((yy - max (cy - r) y0).toNat : Int) = yy by omega]
    exact hc

theorem flat_decomp_unique {W x y x2 y2 : Int} (hW : 0 < W)
    (hx : 0 ≤ x) (hxW : x < W) (hx2 : 0 ≤ x2) (hx2W : x2 < W)
    (h : y * W + x = y2 * W + x2) : y = y2 ∧ x = x2 := by
  have hy : y = y2 := by
    by_contra hne
    rcases lt_or_gt_of_ne hne with hlt | hgt
    · have h1 : y + 1 ≤ y2 := hlt
      have h2 : (y + 1) * W ≤ y2 * W := mul_le_mul_of_nonneg_right h1 (le_of_lt hW)
      nlinarith
    · have h1 : y2 + 1 ≤ y := hgt
      have h2 : (y2 + 1) * W ≤ y * W := mul_le_mul_of_nonneg_right h1 (le_of_lt hW)
      nlinarith
  subst hy
  exact ⟨rfl, by omega⟩

theorem nodup_flatMap_of {α β : Type} (l : List α) (f : α → List β) :
    l.Nodup → (∀ a ∈ l, (f a).Nodup) →
    (∀ a ∈ l, ∀ b ∈ l, a ≠ b → ∀ x ∈ f a, x ∉ f b) →
    (l.flatMap f).Nodup := by
  induction l with
  | nil => intro _ _ _; simp
  | cons a l ih =>
    intro hnd hf hdisj
    rcases List.nodup_cons.mp hnd with ⟨ha, hl⟩
    rw [List.flatMap_cons]
    refine List.Nodup.append (hf a (List.mem_cons_self a l)) ?_ ?_
    · exact ih hl (fun b hb => hf b (List.mem_cons_of_mem a hb))
        (fun b hb c hc => hdisj b (List.mem_cons_of_mem a hb) c (List.mem_cons_of_mem a hc))
    · intro x hxa hxl
      obtain ⟨b, hb, hxb⟩ := List.mem_flatMap.mp hxl
      exact hdisj a (List.mem_cons_self a l) b (List.mem_cons_of_mem a hb)
        (fun hab => ha (hab ▸ hb)) x hxa hxb

theorem minTileIdx_nonneg (T c r : Int) : 0 ≤ minTileIdx T c r := le_max_left 0 _

theorem maxTileIdx_le (T L c r : Int) : maxTileIdx T L c r ≤ tilesX T L - 1 := min_le_left _ _

theorem binBoxTids_nodup (T W H cx cy r : Int) : (binBoxTids T W H cx cy r).Nodup := by
  by_cases hx : minTileIdx T cx r ≤ maxTileIdx T W cx r
  · have hK : 0 < tilesX T W := by
      have := minTileIdx_nonneg T cx r
      have := maxTileIdx_le T W cx r
      omega
    have hinj : ∀ ty : Int, 0 ≤ ty → ∀ tx ∈ intRange (minTileIdx T cx r) (maxTileIdx T W cx r),
        ∀ tx2 ∈ intRange (minTileIdx T cx r) (maxTileIdx T W cx r),
        (ty * tilesX T W + tx).toNat = (ty * tilesX T W + tx2).toNat → tx = tx2 := by
      intro ty hty tx htx tx2 htx2 heq
      rcases mem_intRange.mp htx with ⟨h1, h2⟩
      rcases mem_intRange.mp htx2 with ⟨h3, h4⟩
      have b1 := minTileIdx_nonneg T cx r
      have hnn : 0 ≤ ty * tilesX T W := mul_nonneg hty (le_of_lt hK)
      have : ty * tilesX T W + tx = ty * tilesX T W + tx2 := by omega
      omega
    refine nodup_flatMap_of _ _ (intRange_nodup _ _) ?_ ?_
    · intro ty hty
      rcases mem_intRange.mp hty with ⟨hty1, _⟩
      have hty0 : 0 ≤ ty := le_trans (minTileIdx_nonneg T cy r) hty1
      refine List.Nodup.map_on ?_ (intRange_nodup _ _)
      intro tx htx tx2 htx2 heq
      exact hinj ty hty0 tx htx tx2 htx2 heq
    · intro ty hty ty2 hty2 hne x hxa hxb
      rcases mem_intRange.mp hty with ⟨a1, _⟩
      rcases mem_intRange.mp hty2 with ⟨a2, _⟩
      have hty0 : 0 ≤ ty := le_trans (minTileIdx_nonneg T cy r) a1
      have hty20 : 0 ≤ ty2 := le_trans (minTileIdx_nonneg T cy r) a2
      obtain ⟨tx, htx, hxe⟩ := List.mem_map.mp hxa
      obtain ⟨tx2, htx2, hxe2⟩ := List.mem_map.mp hxb
      rcases mem_intRange.mp htx with ⟨h1, h2⟩
      rcases mem_intRange.mp htx2 with ⟨h3, h4⟩
      have b1 := minTileIdx_nonneg T cx r
      have b2 := maxTileIdx_le T W cx r
      have hK : 0 < tilesX T W := by omega
      have hnn : 0 ≤ ty * tilesX T W + tx :=
        add_nonneg (mul_nonneg hty0 (le_of_lt hK)) (by omega)
      have hnn2 : 0 ≤ ty2 * tilesX T W + tx2 :=
        add_nonneg (mul_nonneg hty20 (le_of_lt hK)) (by omega)
      have heqI : ty * tilesX T W + tx = ty2 * tilesX T W + tx2 := by
        rw [← hxe2] at hxe
        omega
      exact hne (flat_decomp_unique hK (by omega) (by omega) (by omega) (by omega) heqI).1
  · have hempty : intRange (minTileIdx T cx r) (maxTileIdx T W cx r) = [] := by
      unfold intRange
      rw [show ((maxTileIdx T W cx r) + 1 - (minTileIdx T cx r)).toNat = 0 by omega]
      simp
    unfold binBoxTids
    rw [hempty]
    induction (intRange (minTileIdx T cy r) (maxTileIdx T H cy r)) with
    | nil => simp
    | cons a l ih => simpa using ih

theorem foldl_pushTid (i : Nat) :
    ∀ (L : List Nat) (bins : Nat → List Nat) (t : Nat), L.Nodup →
      (L.foldl (fun b tid => pushTid b tid i) bins) t =
        bins t ++ (if t ∈ L then [i] else [])
  | [], bins, t, _ => by simp
  | tid :: L, bins, t, h => by
    simp only [List.foldl_cons]
    rcases List.nodup_cons.mp h with ⟨htid, hL⟩
    rw [foldl_pushTid i L (pushTid bins tid i) t hL]
    simp only [pushTid]
    by_cases ht : t = tid
    · subst ht
      rw [if_pos rfl, if_neg htid, if_pos (List.mem_cons_self _ _)]
      simp
    · rw [if_neg ht]
      by_cases htL : t ∈ L
      · rw [if_pos htL, if_pos (List.mem_cons_of_mem _ htL)]
      · rw [if_neg htL, if_neg (by simp [ht, htL])]

theorem buildBins_fold (T : Int) (P : ParticlesSOA) (W H : Int) (t : Nat) :
    ∀ (l : List Nat) (bins : Nat → List Nat),
      (l.foldl (fun b i =>
          (binBoxTids T W H (px P i) (py P i) (pr P i)).foldl
            (fun b2 tid => pushTid b2 tid i) b)
        bins) t =
      bins t ++ (l.filter fun i => decide (t ∈ binBoxTids T W H (px P i) (py P i) (pr P i)))
  | [], bins => by simp
  | i :: l, bins => by
    simp only [List.foldl_cons]
    rw [buildBins_fold T P W H t l _,
      foldl_pushTid i _ _ t (binBoxTids_nodup T W H (px P i) (py P i) (pr P i))]
    by_cases hmem : t ∈ binBoxTids T W H (px P i) (py P i) (pr P i)
    · rw [if_pos hmem, List.filter_cons, if_pos (by simpa using hmem)]
      simp
    · rw [if_neg hmem, List.filter_cons, if_neg (by simpa using hmem)]
      simp

/-- The bin of tile `t` is exactly the ascending list of particle indices whose clamped
bounding-box tile range contains `t`. -/
theorem buildBins_eq_filter (T : Int) (P : ParticlesSOA) (W H : Int) (t : Nat) :
    buildBins T P W H t =
      (List.range P.n).filter fun i =>
        decide (t ∈ binBoxTids T W H (px P i) (py P i) (pr P i)) := by
  unfold buildBins
  rw [buildBins_fold]
  simp

theorem mem_buildBins {T W H : Int} {P : ParticlesSOA} {t i : Nat} :
    i ∈ buildBins T P W H t ↔
      i < P.n ∧ t ∈ binBoxTids T W H (px P i) (py P i) (pr P i) := by
  rw [buildBins_eq_filter]
  simp [List.mem_filter]

theorem buildBins_pairwise (T : Int) (P : ParticlesSOA) (W H : Int) (t : Nat) :
    List.Pairwise (· < ·) (buildBins T P W H t) := by
  rw [buildBins_eq_filter]
  exact List.Pairwise.filter _ (List.pairwise_lt_range P.n)

theorem binPaint_cons (P : ParticlesSOA) (W x0 y0 x1 y1 i : Int) (j : Nat) (bin : List Nat)
    (acc : Option Nat) :
    binPaint P W x0 y0 x1 y1 (j :: bin) acc i =
      binPaint P W x0 y0 x1 y1 bin
        (if circleCovers W (px P j) (py P j) (pr P j) x0 y0 x1 y1 i
         then some (pcolor P j) else acc) i := rfl

theorem renderTile_cons (P : ParticlesSOA) (x0 y0 x1 y1 : Int) (j : Nat) (bin : List Nat)
    (fb : Framebuffer) :
    renderTile P x0 y0 x1 y1 fb (j :: bin) =
      renderTile P x0 y0 x1 y1
        (draw_circle_clipped_to_tile fb (px P j) (py P j) (pr P j) (pcolor P j) x0 y0 x1 y1)
        bin := rfl

theorem binPaint_some (P : ParticlesSOA) (W x0 y0 x1 y1 i : Int) :
    ∀ (bin : List Nat) (c : Nat),
      ∃ d : Nat, binPaint P W x0 y0 x1 y1 bin (some c) i = some d
  | [], c => ⟨c, rfl⟩
  | j :: bin, c => by
    rw [binPaint_cons]
    by_cases hc : circleCovers W (px P j) (py P j) (pr P j) x0 y0 x1 y1 i
    · rw [if_pos hc]
      exact binPaint_some P W x0 y0 x1 y1 i bin (pcolor P j)
    · rw [if_neg hc]
      exact binPaint_some P W x0 y0 x1 y1 i bin c

theorem binPaint_acc (P : ParticlesSOA) (W x0 y0 x1 y1 i : Int) :
    ∀ (bin : List Nat) (acc : Option Nat),
      binPaint P W x0 y0 x1 y1 bin acc i =
        orElseO (binPaint P W x0 y0 x1 y1 bin none i) acc
  | [], acc => by cases acc <;> simp [binPaint, orElseO]
  | j :: bin, acc => by
    rw [binPaint_cons, binPaint_cons]
    by_cases hc : circleCovers W (px P j) (py P j) (pr P j) x0 y0 x1 y1 i
    · rw [if_pos hc, if_pos hc]
      obtain ⟨d, hd⟩ := binPaint_some P W x0 y0 x1 y1 i bin (pcolor P j)
      rw [hd]
      simp [orElseO]
    · rw [if_neg hc, if_neg hc]
      exact binPaint_acc P W x0 y0 x1 y1 i bin acc

theorem renderTile_W (P : ParticlesSOA) (x0 y0 x1 y1 : Int) :
    ∀ (bin : List Nat) (fb : Framebuffer), (renderTile P x0 y0 x1 y1 fb bin).W = fb.W
  | [], fb => rfl
  | j :: bin, fb => by
    rw [renderTile_cons, renderTile_W P x0 y0 x1 y1 bin, draw_circle_W]

theorem renderTile_H (P : ParticlesSOA) (x0 y0 x1 y1 : Int) :
    ∀ (bin : List Nat) (fb : Framebuffer), (renderTile P x0 y0 x1 y1 fb bin).H = fb.H
  | [], fb => rfl
  | j :: bin, fb => by
    rw [renderTile_cons, renderTile_H P x0 y0 x1 y1 bin, draw_circle_H]

theorem renderTile_pix (P : ParticlesSOA) (x0 y0 x1 y1 i : Int) :
    ∀ (bin : List Nat) (fb : Framebuffer),
      (renderTile P x0 y0 x1 y1 fb bin).pix i =
        (binPaint P fb.W x0 y0 x1 y1 bin none i).getD (fb.pix i)
  | [], fb => by simp [renderTile, binPaint]
  | j :: bin, fb => by
    rw [renderTile_cons, renderTile_pix P x0 y0 x1 y1 i bin, draw_circle_W, draw_circle_pix,
      binPaint_cons]
    by_cases hc : circleCovers fb.W (px P j) (py P j) (pr P j) x0 y0 x1 y1 i
    · rw [if_pos hc, if_pos hc, binPaint_acc P fb.W x0 y0 x1 y1 i bin (some (pcolor P j))]
      cases hb : binPaint P fb.W x0 y0 x1 y1 bin none i with
      | some c => simp [orElseO]
      | none => simp [orElseO]
    · rw [if_neg hc, if_neg hc]

theorem tileStep_W (T : Int) (P : ParticlesSOA) (W H : Int) (bins : Nat → List Nat)
    (fb : Framebuffer) (tid : Nat) : (tileStep T P W H bins fb tid).W = fb.W :=
  renderTile_W _ _ _ _ _ _ _

theorem tileStep_H (T : Int) (P : ParticlesSOA) (W H : Int) (bins : Nat → List Nat)
    (fb : Framebuffer) (tid : Nat) : (tileStep T P W H bins fb tid).H = fb.H :=
  renderTile_H _ _ _ _ _ _ _

theorem tileStep_pix (T : Int) (P : ParticlesSOA) (W H : Int) (bins : Nat → List Nat)
    (fb : Framebuffer) (tid : Nat) (i : Int) :
    (tileStep T P W H bins fb tid).pix i =
      (binPaint P fb.W (tileX0 T W tid) (tileY0 T W tid) (tileX1 T W tid) (tileY1 T W H tid)
        (bins tid) none i).getD (fb.pix i) :=
  renderTile_pix _ _ _ _ _ _ _ _

theorem paintFold_cons (T : Int) (P : ParticlesSOA) (W H : Int) (bins : Nat → List Nat)
    (tid : Nat) (order : List Nat) (acc : Option Nat) (i : Int) :
    paintFold T P W H bins (tid :: order) acc i =
      paintFold T P W H bins order
        (binPaint P W (tileX0 T W tid) (tileY0 T W tid) (tileX1 T W tid) (tileY1 T W H tid)
          (bins tid) acc i) i := rfl

theorem paintFold_some (T : Int) (P : ParticlesSOA) (W H : Int) (bins : Nat → List Nat)
    (i : Int) :
    ∀ (order : List Nat) (c : Nat),
      ∃ d : Nat, paintFold T P W H bins order (some c) i = some d
  | [], c => ⟨c, rfl⟩
  | tid :: order, c => by
    rw [paintFold_cons]
    obtain ⟨d, hd⟩ := binPaint_some P W (tileX0 T W tid) (tileY0 T W tid) (tileX1 T W tid)
      (tileY1 T W H tid) i (bins tid) c
    rw [hd]
    exact paintFold_some T P W H bins i order d

theorem paintFold_acc (T : Int) (P : ParticlesSOA) (W H : Int) (bins : Nat → List Nat)
    (i : Int) :
    ∀ (order : List Nat) (acc : Option Nat),
      paintFold T P W H bins order acc i =
        orElseO (paintFold T P W H bins order none i) acc
  | [], acc => by cases acc <;> simp [paintFold, orElseO]
  | tid :: order, acc => by
    rw [paintFold_cons, paintFold_cons,
      binPaint_acc P W (tileX0 T W tid) (tileY0 T W tid) (tileX1 T W tid) (tileY1 T W H tid)
        i (bins tid) acc]
    cases hb : binPaint P W (tileX0 T W tid) (tileY0 T W tid) (tileX1 T W tid)
        (tileY1 T W H tid) (bins tid) none i with
    | some c =>
      simp only [orElseO]
      obtain ⟨d, hd⟩ := paintFold_some T P W H bins i order c
      rw [hd]
    | none =>
      simp only [orElseO]
      exact paintFold_acc T P W H bins i order acc

theorem foldl_tileStep_W (T : Int) (P : ParticlesSOA) (W H : Int) (bins : Nat → List Nat) :
    ∀ (order : List Nat) (fb : Framebuffer),
      (order.foldl (tileStep T P W H bins) fb).W = fb.W
  | [], fb => rfl
  | tid :: order, fb => by
    rw [List.foldl_cons, foldl_tileStep_W T P W H bins order, tileStep_W]

theorem foldl_tileStep_H (T : Int) (P : ParticlesSOA) (W H : Int) (bins : Nat → List Nat) :
    ∀ (order : List Nat) (fb : Framebuffer),
      (order.foldl (tileStep T P W H bins) fb).H = fb.H
  | [], fb => rfl
  | tid :: order, fb => by
    rw [List.foldl_cons, foldl_tileStep_H T P W H bins order, tileStep_H]

theorem renderFold_pix (T : Int) (P : ParticlesSOA) (W H : Int) (bins : Nat → List Nat)
    (i : Int) :
    ∀ (order : List Nat) (fb : Framebuffer), fb.W = W →
      (order.foldl (tileStep T P W H bins) fb).pix i =
        (paintFold T P W H bins order none i).getD (fb.pix i)
  | [], fb, _ => by simp [paintFold]
  | tid :: order, fb, hW => by
    rw [List.foldl_cons,
      renderFold_pix T P W H bins i order (tileStep T P W H bins fb tid)
        (by rw [tileStep_W]; exact hW),
      tileStep_pix, hW, paintFold_cons,
      paintFold_acc T P W H bins i order
        (binPaint P W (tileX0 T W tid) (tileY0 T W tid) (tileX1 T W tid) (tileY1 T W H tid)
          (bins tid) none i)]
    cases hb : paintFold T P W H bins order none i with
    | some c => simp [orElseO]
    | none => simp [orElseO]

@[simp] theorem renderOrder_W (T : Int) (P : ParticlesSOA) (fb : Framebuffer)
    (order : List Nat) : (renderOrder T P fb order).W = fb.W :=
  foldl_tileStep_W _ _ _ _ _ _ _

@[simp] theorem renderOrder_H (T : Int) (P : ParticlesSOA) (fb : Framebuffer)
    (order : List Nat) : (renderOrder T P fb order).H = fb.H :=
  foldl_tileStep_H _ _ _ _ _ _ _

theorem renderOrder_pix (T : Int) (P : ParticlesSOA) (fb : Framebuffer) (order : List Nat)
    (i : Int) :
    (renderOrder T P fb order).pix i =
      (paintFold T P fb.W fb.H (buildBins T P fb.W fb.H) order none i).getD (fb.pix i) :=
  renderFold_pix _ _ _ _ _ _ _ _ rfl

@[simp] theorem render_tiled_W (T : Int) (P : ParticlesSOA) (fb : Framebuffer) :
    (render_tiled T P fb).W = fb.W := renderOrder_W _ _ _ _

@[simp] theorem render_tiled_H (T : Int) (P : ParticlesSOA) (fb : Framebuffer) :
    (render_tiled T P fb).H = fb.H := renderOrder_H _ _ _ _

theorem render_tiled_pix (T : Int) (P : ParticlesSOA) (fb : Framebuffer) (i : Int) :
    (render_tiled T P fb).pix i = (renderPaint T P fb.W fb.H i).getD (fb.pix i) :=
  renderOrder_pix _ _ _ _ _

theorem tdiv_nonpos_of_nonpos {a T : Int} (ha : a ≤ 0) (hT : 0 ≤ T) : Int.tdiv a T ≤ 0 := by
  have h : Int.tdiv (-(-a)) T = -Int.tdiv (-a) T := Int.neg_tdiv (-a) T
  rw [neg_neg] at h
  rw [h]
  have h2 : 0 ≤ Int.tdiv (-a) T := by
    rw [Int.tdiv_eq_ediv (by omega) hT]
    exact Int.ediv_nonneg (by omega) hT
  omega

theorem tilesX_pos {T W : Int} (hT : 1 ≤ T) (hW : 1 ≤ W) : 0 < tilesX T W := by
  unfold tilesX
  rw [Int.tdiv_eq_ediv (by omega) (by omega)]
  have h := (Int.le_ediv_iff_mul_le (a := 1) (b := W + T - 1) (c := T) (by omega)).mpr (by omega)
  omega

theorem le_tilesX_mul {T W : Int} (hT : 1 ≤ T) (hW : 1 ≤ W) : W ≤ tilesX T W * T := by
  unfold tilesX
  rw [Int.tdiv_eq_ediv (by omega) (by omega)]
  have h := Int.lt_ediv_add_one_mul_self (W + T - 1) (b := T) (by omega)
  nlinarith [Int.ediv_nonneg (show (0:Int) ≤ W + T - 1 by omega) (show (0:Int) ≤ T by omega)]

theorem tileTx_nonneg {T W : Int} (tid : Nat) (hK : 0 < tilesX T W) :
    0 ≤ tileTx T W tid := by
  unfold tileTx
  rw [Int.tmod_eq_emod (a := (tid : Int)) (b := tilesX T W) (by omega) (by omega)]
  exact Int.emod_nonneg _ (by omega)

theorem tileTx_lt {T W : Int} (tid : Nat) (hK : 0 < tilesX T W) :
    tileTx T W tid < tilesX T W := by
  unfold tileTx
  rw [Int.tmod_eq_emod (by omega) (by omega)]
  exact Int.emod_lt_of_pos _ hK

theorem tileTy_nonneg {T W : Int} (tid : Nat) (hK : 0 < tilesX T W) :
    0 ≤ tileTy T W tid := by
  unfold tileTy
  rw [Int.tdiv_eq_ediv (by omega) (by omega)]
  exact Int.ediv_nonneg (by omega) (by omega)

theorem tile_id_decomp {T W : Int} (tid : Nat) (hK : 0 < tilesX T W) :
    tileTy T W tid * tilesX T W + tileTx T W tid = (tid : Int) := by
  unfold tileTx tileTy
  rw [Int.tmod_eq_emod (by omega) (by omega), Int.tdiv_eq_ediv (by omega) (by omega)]
  have h := Int.ediv_add_emod (tid : Int) (tilesX T W)
  nlinarith [h]

theorem tileTy_lt {T W H : Int} (tid : Nat) (hK : 0 < tilesX T W)
    (htid : tid < totalTiles T W H) : tileTy T W tid < tilesX T H := by
  unfold tileTy
  rw [Int.tdiv_eq_ediv (by omega) (by omega)]
  have h1 : (tid : Int) < tilesX T W * tilesX T H := by
    unfold totalTiles at htid
    omega
  rw [Int.ediv_lt_iff_lt_mul hK]
  nlinarith [h1]

theorem tileX0_nonneg {T W : Int} (tid : Nat) (hT : 1 ≤ T) (hK : 0 < tilesX T W) :
    0 ≤ tileX0 T W tid := by
  unfold tileX0
  exact mul_nonneg (tileTx_nonneg tid hK) (by omega)

theorem tileX1_le {T W : Int} (tid : Nat) : tileX1 T W tid ≤ W := min_le_right _ _

theorem tileY0_nonneg {T W : Int} (tid : Nat) (hT : 1 ≤ T) (hK : 0 < tilesX T W) :
    0 ≤ tileY0 T W tid := by
  unfold tileY0
  exact mul_nonneg (tileTy_nonneg tid hK) (by omega)

theorem tileY1_le {T W H : Int} (tid : Nat) : tileY1 T W H tid ≤ H := min_le_right _ _

theorem pixTid_spec {T W H x y : Int} (hT : 1 ≤ T) (hW : 1 ≤ W) (hH : 1 ≤ H)
    (hx0 : 0 ≤ x) (hxW : x < W) (hy0 : 0 ≤ y) (hyH : y < H) :
    pixTid T W x y < totalTiles T W H ∧
      tileTx T W (pixTid T W x y) = x / T ∧ tileTy T W (pixTid T W x y) = y / T := by
  have hKx := tilesX_pos hT hW
  have hKy := tilesX_pos hT hH
  have htx0 : 0 ≤ x / T := Int.ediv_nonneg hx0 (by omega)
  have hty0 : 0 ≤ y / T := Int.ediv_nonneg hy0 (by omega)
  have htxK : x / T < tilesX T W := by
    rw [Int.ediv_lt_iff_lt_mul (by omega)]
    exact lt_of_lt_of_le hxW (le_tilesX_mul hT hW)
  have htyK : y / T < tilesX T H := by
    rw [Int.ediv_lt_iff_lt_mul (by omega)]
    exact lt_of_lt_of_le hyH (le_tilesX_mul hT hH)
  have hnn : 0 ≤ (y / T) * tilesX T W + x / T :=
    add_nonneg (mul_nonneg hty0 (by omega)) htx0
  have hcast : ((pixTid T W x y : Nat) : Int) = (y / T) * tilesX T W + x / T := by
    unfold pixTid
    exact Int.toNat_of_nonneg hnn
  refine ⟨?_, ?_, ?_⟩
  · unfold pixTid totalTiles
    rw [Int.toNat_lt_toNat (by positivity)]
    have h1 : (y / T) * tilesX T W ≤ (tilesX T H - 1) * tilesX T W :=
      mul_le_mul_of_nonneg_right (by omega) (by omega)
    nlinarith
  · unfold tileTx
    rw [Int.tmod_eq_emod (by omega) (by omega), hcast]
    rw [show (y / T) * tilesX T W + x / T = x / T + (y / T) * tilesX T W by ring]
    rw [Int.add_mul_emod_self]
    exact Int.emod_eq_of_lt htx0 htxK
  · unfold tileTy
    rw [Int.tdiv_eq_ediv (by omega) (by omega), hcast]
    rw [show (y / T) * tilesX T W + x / T = x / T + (y / T) * tilesX T W by ring]
    rw [Int.add_mul_ediv_right _ _ (by omega : tilesX T W ≠ 0)]
    rw [Int.ediv_eq_zero_of_lt htx0 htxK]
    ring

/-- A pixel lies inside the rectangle of the tile whose id `pixTid` computes. -/
theorem pix_in_own_tile {T W H x y : Int} (hT : 1 ≤ T) (hW : 1 ≤ W) (hH : 1 ≤ H)
    (hx0 : 0 ≤ x) (hxW : x < W) (hy0 : 0 ≤ y) (hyH : y < H) :
    tileX0 T W (pixTid T W x y) ≤ x ∧ x < tileX1 T W (pixTid T W x y) ∧
      tileY0 T W (pixTid T W x y) ≤ y ∧ y < tileY1 T W H (pixTid T W x y) := by
  obtain ⟨_, htx, hty⟩ := pixTid_spec (H := H) hT hW hH hx0 hxW hy0 hyH
  have h1 : x / T * T ≤ x := Int.ediv_mul_le x (by omega)
  have h2 : x < (x / T + 1) * T := Int.lt_ediv_add_one_mul_self x (by omega)
  have h3 : y / T * T ≤ y := Int.ediv_mul_le y (by omega)
  have h4 : y < (y / T + 1) * T := Int.lt_ediv_add_one_mul_self y (by omega)
  unfold tileX1 tileY1 tileX0 tileY0
  rw [htx, hty]
  refine ⟨h1, ?_, h3, ?_⟩ <;> rw [lt_min_iff] <;> constructor
  · nlinarith
  · exact hxW
  · nlinarith
  · exact hyH

/-- A tile id whose rectangle contains a pixel is the pixel's own tile id. -/
theorem tile_unique {T W H x y : Int} {tid : Nat} (hT : 1 ≤ T) (hK : 0 < tilesX T W)
    (hx1 : tileX0 T W tid ≤ x) (hx2 : x < tileX1 T W tid)
    (hy1 : tileY0 T W tid ≤ y) (hy2 : y < tileY1 T W H tid) :
    tid = pixTid T W x y := by
  have htx0 := tileTx_nonneg (T := T) (W := W) tid hK
  have hty0 := tileTy_nonneg (T := T) (W := W) tid hK
  have hdec := tile_id_decomp (T := T) (W := W) tid hK
  unfold tileX1 at hx2
  unfold tileY1 at hy2
  unfold tileX0 at hx1 hx2
  unfold tileY0 at hy1 hy2
  rw [lt_min_iff] at hx2 hy2
  have hxdiv : x / T = tileTx T W tid := by
    have ha : tileTx T W tid ≤ x / T := by
      rw [Int.le_ediv_iff_mul_le (by omega)]
      exact hx1
    have hb : x / T < tileTx T W tid + 1 := by
      rw [Int.ediv_lt_iff_lt_mul (by omega)]
      nlinarith [hx2.1]
    omega
  have hydiv : y / T = tileTy T W tid := by
    have ha : tileTy T W tid ≤ y / T := by
      rw [Int.le_ediv_iff_mul_le (by omega)]
      exact hy1
    have hb : y / T < tileTy T W tid + 1 := by
      rw [Int.ediv_lt_iff_lt_mul (by omega)]
      nlinarith [hy2.1]
    omega
  unfold pixTid
  rw [hxdiv, hydiv, hdec]
  omega

theorem dxAt_nonneg (r cy yy : Int) : 0 ≤ dxAt r cy yy := Int.ofNat_nonneg _

theorem dxAt_le_r {r : Int} (cy yy : Int) (hr : 0 ≤ r) : dxAt r cy yy ≤ r := by
  unfold dxAt
  have hcast : r * r = ((r.toNat * r.toNat : Nat) : Int) := by
    push_cast
    rw [Int.toNat_of_nonneg hr]
  have ht : (r * r - (yy - cy) * (yy - cy)).toNat ≤ r.toNat * r.toNat := by
    have h1 : r * r - (yy - cy) * (yy - cy) ≤ r * r := by nlinarith [sq_nonneg (yy - cy)]
    omega
  have h2 := isqrt_le ht
  calc (isqrt ((r * r - (yy - cy) * (yy - cy)).toNat) : Int)
      ≤ (r.toNat : Int) := by exact_mod_cast h2
    _ = r := Int.toNat_of_nonneg hr

theorem rowCovers_decomp {W cx cy r x0 x1 yy i : Int}
    (h : rowCovers W cx cy r x0 x1 yy i = true) :
    ∃ x : Int, i = yy * W + x ∧
      max (cx - dxAt r cy yy) x0 ≤ x ∧ x ≤ min (cx + dxAt r cy yy) (x1 - 1) := by
  have hc := of_decide_eq_true h
  exact ⟨i - yy * W, by omega, by omega, by omega⟩

theorem rowCovers_intro {W cx cy r x0 x1 yy i x : Int} (hi : i = yy * W + x)
    (h1 : max (cx - dxAt r cy yy) x0 ≤ x) (h2 : x ≤ min (cx + dxAt r cy yy) (x1 - 1)) :
    rowCovers W cx cy r x0 x1 yy i = true := by
  apply decide_eq_true
  omega

/-- Existence form: a covered flat index decomposes as `y*W + x` with `(x, y)` in the
clipped span of some scan row. -/
theorem circleCovers_decomp {W cx cy r x0 y0 x1 y1 i : Int}
    (h : circleCovers W cx cy r x0 y0 x1 y1 i = true) :
    ∃ x y : Int, i = y * W + x ∧
      max (cx - dxAt r cy y) x0 ≤ x ∧ x ≤ min (cx + dxAt r cy y) (x1 - 1) ∧
      max (cy - r) y0 ≤ y ∧ y ≤ min (cy + r) (y1 - 1) := by
  obtain ⟨yy, hy1, hy2, hrow⟩ := (circleCovers_iff W cx cy r x0 y0 x1 y1 i).mp h
  obtain ⟨x, hx, hxa, hxb⟩ := rowCovers_decomp hrow
  exact ⟨x, yy, hx, hxa, hxb, hy1, hy2⟩

/-- Uniqueness form: when the horizontal clip stays within one row of the framebuffer,
coverage of the flat index `y*W + x` of an in-range pixel is exactly the clipped
scanline condition at `(x, y)`. -/
theorem circleCovers_pix_iff {W cx cy r x0 y0 x1 y1 x y : Int}
    (hW : 0 < W) (hx0 : 0 ≤ x0) (hx1 : x1 ≤ W) (hx : 0 ≤ x) (hxW : x < W) :
    circleCovers W cx cy r x0 y0 x1 y1 (y * W + x) = true ↔
      (max (cy - r) y0 ≤ y ∧ y ≤ min (cy + r) (y1 - 1) ∧
       max (cx - dxAt r cy y) x0 ≤ x ∧ x ≤ min (cx + dxAt r cy y) (x1 - 1)) := by
  constructor
  · intro h
    obtain ⟨x2, y2, hi, ha, hb, hc, hd⟩ := circleCovers_decomp h
    have hx20 : 0 ≤ x2 := by omega
    have hx2W : x2 < W := by omega
    obtain ⟨hyy, hxx⟩ := flat_decomp_unique hW hx hxW hx20 hx2W hi
    subst hyy
    subst hxx
    exact ⟨hc, hd, ha, hb⟩
  · rintro ⟨h1, h2, h3, h4⟩
    apply (circleCovers_iff W cx cy r x0 y0 x1 y1 (y * W + x)).mpr
    exact ⟨y, h1, h2, rowCovers_intro rfl h3 h4⟩

/-- The clipped-span membership at a row is, for `r ≥ 0`, exactly the integer disc
condition `(x-cx)² + (y-cy)² ≤ r²`. -/
theorem span_iff_disc {r cy cx x y : Int} (hr : 0 ≤ r) :
    (cy - r ≤ y ∧ y ≤ cy + r ∧ cx - dxAt r cy y ≤ x ∧ x ≤ cx + dxAt r cy y) ↔
      (x - cx) * (x - cx) + (y - cy) * (y - cy) ≤ r * r := by
  constructor
  · rintro ⟨h1, h2, h3, h4⟩
    have hdy : (y - cy) * (y - cy) ≤ r * r := by nlinarith
    have ht0 : 0 ≤ r * r - (y - cy) * (y - cy) := by omega
    have habs : ((x - cx).natAbs : Int) ≤ dxAt r cy y := by
      rcases abs_le.mpr (show -(dxAt r cy y) ≤ x - cx ∧ x - cx ≤ dxAt r cy y by omega) with h
      calc ((x - cx).natAbs : Int) = |x - cx| := (Int.abs_eq_natAbs _).symm
        _ ≤ dxAt r cy y := h
    have hnat : (x - cx).natAbs ≤ isqrt ((r * r - (y - cy) * (y - cy)).toNat) := by
      unfold dxAt at habs
      exact_mod_cast habs
    have hsq := (le_isqrt_iff _ _).mp hnat
    have hxx : (x - cx) * (x - cx) ≤ r * r - (y - cy) * (y - cy) := by
      calc (x - cx) * (x - cx) = (((x - cx).natAbs * (x - cx).natAbs : Nat) : Int) :=
            (Int.natAbs_mul_self).symm
        _ ≤ (((r * r - (y - cy) * (y - cy)).toNat : Nat) : Int) := by exact_mod_cast hsq
        _ = r * r - (y - cy) * (y - cy) := Int.toNat_of_nonneg ht0
    omega
  · intro h
    have hdy : (y - cy) * (y - cy) ≤ r * r := by nlinarith [sq_nonneg (x - cx)]
    have hy1 : cy - r ≤ y := by nlinarith
    have hy2 : y ≤ cy + r := by nlinarith
    have ht0 : 0 ≤ r * r - (y - cy) * (y - cy) := by omega
    have hsq : (x - cx).natAbs * (x - cx).natAbs ≤ (r * r - (y - cy) * (y - cy)).toNat := by
      have hxx : (((x - cx).natAbs * (x - cx).natAbs : Nat) : Int) ≤
          r * r - (y - cy) * (y - cy) := by
        rw [Int.natAbs_mul_self]
        omega
      omega
    have hnat := (le_isqrt_iff _ _).mpr hsq
    have habs : |x - cx| ≤ dxAt r cy y := by
      unfold dxAt
      calc |x - cx| = ((x - cx).natAbs : Int) := Int.abs_eq_natAbs _
        _ ≤ _ := by exact_mod_cast hnat
    rw [abs_le] at habs
    exact ⟨hy1, hy2, by omega, by omega⟩

/-- A particle whose bounding square misses the framebuffer writes nothing in any tile
rectangle that is clamped inside the framebuffer. -/
theorem offscreen_no_cover {W H cx cy r x0 y0 x1 y1 i : Int}
    (hx0 : 0 ≤ x0) (hx1 : x1 ≤ W) (hy0 : 0 ≤ y0) (hy1 : y1 ≤ H)
    (hoff : cx + r < 0 ∨ W ≤ cx - r ∨ cy + r < 0 ∨ H ≤ cy - r ∨ r < 0) :
    circleCovers W cx cy r x0 y0 x1 y1 i = false := by
  by_contra hc
  have h : circleCovers W cx cy r x0 y0 x1 y1 i = true := by
    cases hcc : circleCovers W cx cy r x0 y0 x1 y1 i
    · exact absurd hcc hc
    · rfl
  obtain ⟨x, y, hi, ha, hb, hcy1, hcy2⟩ := circleCovers_decomp h
  have hr : 0 ≤ r := by omega
  have hdx := dxAt_le_r (r := r) cy y hr
  have hdx0 := dxAt_nonneg r cy y
  rcases hoff with hcase | hcase | hcase | hcase | hcase <;> omega

theorem tile_encode_spec {T W : Int} {tx ty : Int} (hK : 0 < tilesX T W)
    (htx0 : 0 ≤ tx) (htxK : tx < tilesX T W) (hty0 : 0 ≤ ty) :
    tileTx T W ((ty * tilesX T W + tx).toNat) = tx ∧
      tileTy T W ((ty * tilesX T W + tx).toNat) = ty := by
  have hnn : 0 ≤ ty * tilesX T W + tx := add_nonneg (mul_nonneg hty0 (by omega)) htx0
  have hcast : (((ty * tilesX T W + tx).toNat : Nat) : Int) = ty * tilesX T W + tx :=
    Int.toNat_of_nonneg hnn
  constructor
  · unfold tileTx
    rw [Int.tmod_eq_emod (by omega) (by omega), hcast]
    rw [show ty * tilesX T W + tx = tx + ty * tilesX T W by ring]
    rw [Int.add_mul_emod_self]
    exact Int.emod_eq_of_lt htx0 htxK
  · unfold tileTy
    rw [Int.tdiv_eq_ediv (by omega) (by omega), hcast]
    rw [show ty * tilesX T W + tx = tx + ty * tilesX T W by ring]
    rw [Int.add_mul_ediv_right _ _ (by omega : tilesX T W ≠ 0)]
    rw [Int.ediv_eq_zero_of_lt htx0 htxK]
    ring

/-- Membership in the pushed tile-id list is exactly the clamped box-range condition on
the tile's coordinates. -/
theorem mem_binBoxTids {T W H cx cy r : Int} {t : Nat} (hK : 0 < tilesX T W) :
    t ∈ binBoxTids T W H cx cy r ↔
      (minTileIdx T cx r ≤ tileTx T W t ∧ tileTx T W t ≤ maxTileIdx T W cx r ∧
       minTileIdx T cy r ≤ tileTy T W t ∧ tileTy T W t ≤ maxTileIdx T H cy r) := by
  unfold binBoxTids
  constructor
  · intro h
    obtain ⟨ty, hty, hmem⟩ := List.mem_flatMap.mp h
    obtain ⟨tx, htx, henc⟩ := List.mem_map.mp hmem
    rcases mem_intRange.mp hty with ⟨hty1, hty2⟩
    rcases mem_intRange.mp htx with ⟨htx1, htx2⟩
    have htx0 : 0 ≤ tx := le_trans (minTileIdx_nonneg T cx r) htx1
    have hty0 : 0 ≤ ty := le_trans (minTileIdx_nonneg T cy r) hty1
    have htxK : tx < tilesX T W := by
      have := maxTileIdx_le T W cx r
      omega
    obtain ⟨he1, he2⟩ := tile_encode_spec hK htx0 htxK hty0
    rw [← henc, he1, he2]
    exact ⟨htx1, htx2, hty1, hty2⟩
  · rintro ⟨h1, h2, h3, h4⟩
    apply List.mem_flatMap.mpr
    refine ⟨tileTy T W t, mem_intRange.mpr ⟨h3, h4⟩, ?_⟩
    apply List.mem_map.mpr
    refine ⟨tileTx T W t, mem_intRange.mpr ⟨h1, h2⟩, ?_⟩
    rw [tile_id_decomp t hK]
    exact Int.toNat_natCast t

/-- Binning completeness: a tile whose rectangle contains a point of the particle's
bounding square receives the particle's tile-id entry. -/
theorem binned_of_intersects {T W H cx cy r : Int} {tid : Nat}
    (hT : 1 ≤ T) (hW : 1 ≤ W) (hH : 1 ≤ H) (htid : tid < totalTiles T W H)
    (x y : Int) (hx : tileX0 T W tid ≤ x) (hx2 : x < tileX1 T W tid)
    (hy : tileY0 T W tid ≤ y) (hy2 : y < tileY1 T W H tid)
    (hbx : cx - r ≤ x) (hbx2 : x ≤ cx + r) (hby : cy - r ≤ y) (hby2 : y ≤ cy + r) :
    tid ∈ binBoxTids T W H cx cy r := by
  have hKx := tilesX_pos hT hW
  have hKy := tilesX_pos hT hH
  have htx0 := tileTx_nonneg (T := T) (W := W) tid hKx
  have htxK := tileTx_lt (T := T) (W := W) tid hKx
  have hty0 := tileTy_nonneg (T := T) (W := W) tid hKx
  have htyK := tileTy_lt (T := T) (W := W) (H := H) tid hKx htid
  unfold tileX0 at hx
  unfold tileX1 tileX0 at hx2
  unfold tileY0 at hy
  unfold tileY1 tileY0 at hy2
  rw [lt_min_iff] at hx2 hy2
  apply (mem_binBoxTids hKx).mpr
  have hx00 : 0 ≤ tileTx T W tid * T := mul_nonneg htx0 (by omega)
  have hy00 : 0 ≤ tileTy T W tid * T := mul_nonneg hty0 (by omega)
  refine ⟨?_, ?_, ?_, ?_⟩
  · unfold minTileIdx
    rcases le_or_lt 0 (cx - r) with hcase | hcase
    · have hd : Int.tdiv (cx - r) T ≤ tileTx T W tid := by
        rw [Int.tdiv_eq_ediv hcase (by omega)]
        have hlt : cx - r < (tileTx T W tid + 1) * T := by nlinarith [hx2.1]
        have := (Int.ediv_lt_iff_lt_mul (a := cx - r) (b := tileTx T W tid + 1)
          (c := T) (by omega)).mpr hlt
        omega
      omega
    · have hd := tdiv_nonpos_of_nonpos (a := cx - r) (T := T) (by omega) (by omega)
      omega
  · unfold maxTileIdx
    have hd : tileTx T W tid ≤ Int.tdiv (cx + r) T := by
      rw [Int.tdiv_eq_ediv (by omega) (by omega)]
      rw [Int.le_ediv_iff_mul_le (by omega)]
      omega
    have := maxTileIdx_le T W cx r
    omega
  · unfold minTileIdx
    rcases le_or_lt 0 (cy - r) with hcase | hcase
    · have hd : Int.tdiv (cy - r) T ≤ tileTy T W tid := by
        rw [Int.tdiv_eq_ediv hcase (by omega)]
        have hlt : cy - r < (tileTy T W tid + 1) * T := by nlinarith [hy2.1]
        have := (Int.ediv_lt_iff_lt_mul (a := cy - r) (b := tileTy T W tid + 1)
          (c := T) (by omega)).mpr hlt
        omega
      omega
    · have hd := tdiv_nonpos_of_nonpos (a := cy - r) (T := T) (by omega) (by omega)
      omega
  · unfold maxTileIdx
    have hd : tileTy T W tid ≤ Int.tdiv (cy + r) T := by
      rw [Int.tdiv_eq_ediv (by omega) (by omega)]
      rw [Int.le_ediv_iff_mul_le (by omega)]
      omega
    have := maxTileIdx_le T H cy r
    omega

theorem binPaint_no_cover (P : ParticlesSOA) (W x0 y0 x1 y1 i : Int) :
    ∀ (bin : List Nat) (acc : Option Nat),
      (∀ j ∈ bin, circleCovers W (px P j) (py P j) (pr P j) x0 y0 x1 y1 i = false) →
      binPaint P W x0 y0 x1 y1 bin acc i = acc
  | [], acc, _ => rfl
  | j :: bin, acc, h => by
    rw [binPaint_cons, if_neg (by simp [h j (List.mem_cons_self j bin)])]
    exact binPaint_no_cover P W x0 y0 x1 y1 i bin acc
      (fun k hk => h k (List.mem_cons_of_mem j hk))

theorem paintFold_no_cover (T : Int) (P : ParticlesSOA) (W H : Int)
    (bins : Nat → List Nat) (i : Int) :
    ∀ (order : List Nat) (acc : Option Nat),
      (∀ tid ∈ order, ∀ j ∈ bins tid,
        circleCovers W (px P j) (py P j) (pr P j) (tileX0 T W tid) (tileY0 T W tid)
          (tileX1 T W tid) (tileY1 T W H tid) i = false) →
      paintFold T P W H bins order acc i = acc
  | [], acc, _ => rfl
  | tid :: order, acc, h => by
    rw [paintFold_cons, binPaint_no_cover P W _ _ _ _ i (bins tid) acc
      (fun j hj => h tid (List.mem_cons_self tid order) j hj)]
    exact paintFold_no_cover T P W H bins i order acc
      (fun t ht j hj => h t (List.mem_cons_of_mem tid ht) j hj)

theorem paintFold_append (T : Int) (P : ParticlesSOA) (W H : Int)
    (bins : Nat → List Nat) (i : Int) (o1 o2 : List Nat) (acc : Option Nat) :
    paintFold T P W H bins (o1 ++ o2) acc i =
      paintFold T P W H bins o2 (paintFold T P W H bins o1 acc i) i := by
  unfold paintFold
  rw [List.foldl_append]

/-- If the pixel's flat index can be covered only through tile `ptid`, the whole fold
collapses to `ptid`'s bin paint. -/
theorem paintFold_only (T : Int) (P : ParticlesSOA) (W H : Int)
    (bins : Nat → List Nat) (i : Int) (ptid : Nat) (order : List Nat)
    (hmem : ptid ∈ order) (hnd : order.Nodup)
    (hskip : ∀ tid ∈ order, tid ≠ ptid → ∀ j ∈ bins tid,
      circleCovers W (px P j) (py P j) (pr P j) (tileX0 T W tid) (tileY0 T W tid)
        (tileX1 T W tid) (tileY1 T W H tid) i = false) :
    paintFold T P W H bins order none i =
      binPaint P W (tileX0 T W ptid) (tileY0 T W ptid) (tileX1 T W ptid)
        (tileY1 T W H ptid) (bins ptid) none i := by
  obtain ⟨l1, l2, rfl⟩ := List.append_of_mem hmem
  have hnd1 : ptid ∉ l1 := by
    intro hc
    exact (List.Nodup.not_mem ((List.nodup_append.mp hnd).2.1)) (by
      exact absurd hc (by
        have := (List.nodup_append.mp hnd).2.2
        intro hc2
        exact this hc2 (List.mem_cons_self _ _)))
  have hnd2 : ptid ∉ l2 := List.Nodup.not_mem ((List.nodup_append.mp hnd).2.1)
  rw [paintFold_append]
  rw [paintFold_no_cover T P W H bins i l1 none
    (fun t ht j hj => hskip t (List.mem_append_left _ ht) (by
      intro hc
      exact hnd1 (hc ▸ ht)) j hj)]
  rw [show (ptid :: l2 : List Nat) = [ptid] ++ l2 from rfl, paintFold_append]
  rw [paintFold_no_cover T P W H bins i l2 _
    (fun t ht j hj => hskip t (List.mem_append_right _ (List.mem_cons_of_mem _ ht)) (by
      intro hc
      exact hnd2 (hc ▸ ht)) j hj)]
  rfl

theorem binPaint_filter (P : ParticlesSOA) (W x0 y0 x1 y1 i : Int) (p : Nat → Bool) :
    ∀ (l : List Nat) (acc : Option Nat),
      (∀ j ∈ l, p j = false →
        circleCovers W (px P j) (py P j) (pr P j) x0 y0 x1 y1 i = false) →
      binPaint P W x0 y0 x1 y1 (l.filter p) acc i = binPaint P W x0 y0 x1 y1 l acc i
  | [], acc, _ => rfl
  | j :: l, acc, h => by
    rw [List.filter_cons]
    by_cases hp : p j = true
    · rw [if_pos hp, binPaint_cons, binPaint_cons]
      exact binPaint_filter P W x0 y0 x1 y1 i p l _
        (fun k hk => h k (List.mem_cons_of_mem j hk))
    · rw [if_neg hp, binPaint_cons,
        if_neg (by simp [h j (List.mem_cons_self j l) (by simpa using hp)])]
      exact binPaint_filter P W x0 y0 x1 y1 i p l acc
        (fun k hk => h k (List.mem_cons_of_mem j hk))

theorem gPaintAux_cons (P : ParticlesSOA) (x y : Int) (j : Nat) (l : List Nat)
    (acc : Option Nat) :
    gPaintAux P x y (j :: l) acc =
      gPaintAux P x y l
        (if coverPix (px P j) (py P j) (pr P j) x y then some (pcolor P j) else acc) := rfl

theorem binPaint_eq_gPaint (P : ParticlesSOA) (W x0 y0 x1 y1 i x y : Int) :
    ∀ (l : List Nat) (acc : Option Nat),
      (∀ j ∈ l, circleCovers W (px P j) (py P j) (pr P j) x0 y0 x1 y1 i =
        coverPix (px P j) (py P j) (pr P j) x y) →
      binPaint P W x0 y0 x1 y1 l acc i = gPaintAux P x y l acc
  | [], acc, _ => rfl
  | j :: l, acc, h => by
    rw [binPaint_cons, gPaintAux_cons, h j (List.mem_cons_self j l)]
    exact binPaint_eq_gPaint P W x0 y0 x1 y1 i x y l _
      (fun k hk => h k (List.mem_cons_of_mem j hk))

theorem bool_eq_of_iff {a b : Bool} (h : a = true ↔ b = true) : a = b := by
  cases a <;> cases b <;> simp_all

/-- A tile whose clipped spans write the flat index of an in-range pixel must be the
pixel's own tile. -/
theorem cover_forces_tid {T W H cx cy r x y : Int} {tid : Nat}
    (hT : 1 ≤ T) (hK : 0 < tilesX T W) (hW : 0 < W)
    (hx : 0 ≤ x) (hxW : x < W)
    (hcov : circleCovers W cx cy r (tileX0 T W tid) (tileY0 T W tid) (tileX1 T W tid)
      (tileY1 T W H tid) (y * W + x) = true) :
    tid = pixTid T W x y := by
  have hx0 := tileX0_nonneg (T := T) (W := W) tid hT hK
  have hx1 := tileX1_le (T := T) (W := W) tid
  obtain ⟨h1, h2, h3, h4⟩ := (circleCovers_pix_iff hW hx0 hx1 hx hxW).mp hcov
  exact tile_unique (H := H) hT hK (by omega) (by omega) (by omega) (by omega)

/-- Tile independence of the paint: at an in-range pixel, the tiled last-write-wins
fold paints exactly what a single global last-write-wins pass over all particles
paints. -/
theorem renderPaint_eq_globalPaint (T : Int) (P : ParticlesSOA) {W H x y : Int}
    (hT : 1 ≤ T) (hW : 1 ≤ W) (hH : 1 ≤ H)
    (hx : 0 ≤ x) (hxW : x < W) (hy : 0 ≤ y) (hyH : y < H) :
    renderPaint T P W H (y * W + x) = globalPaint P x y := by
  have hKx := tilesX_pos hT hW
  obtain ⟨hptid, _, _⟩ := pixTid_spec (H := H) hT hW hH hx hxW hy hyH
  obtain ⟨ho1, ho2, ho3, ho4⟩ := pix_in_own_tile (H := H) hT hW hH hx hxW hy hyH
  have hcovloc : ∀ j : Nat,
      circleCovers W (px P j) (py P j) (pr P j) (tileX0 T W (pixTid T W x y))
        (tileY0 T W (pixTid T W x y)) (tileX1 T W (pixTid T W x y))
        (tileY1 T W H (pixTid T W x y)) (y * W + x) =
      coverPix (px P j) (py P j) (pr P j) x y := by
    intro j
    apply bool_eq_of_iff
    rw [circleCovers_pix_iff (show (0:Int) < W by omega)
      (tileX0_nonneg _ hT hKx) (tileX1_le _) hx hxW]
    unfold coverPix
    rw [decide_eq_true_eq]
    constructor
    · rintro ⟨h1, h2, h3, h4⟩
      refine ⟨by omega, by omega, by omega, by omega⟩
    · rintro ⟨h1, h2, h3, h4⟩
      refine ⟨by omega, by omega, by omega, by omega⟩
  unfold renderPaint
  rw [paintFold_only T P W H (buildBins T P W H) (y * W + x) (pixTid T W x y)
    (List.range (totalTiles T W H)) (List.mem_range.mpr hptid) (List.nodup_range _)
    (by
      intro tid htid hne j hj
      cases hcc : circleCovers W (px P j) (py P j) (pr P j) (tileX0 T W tid)
          (tileY0 T W tid) (tileX1 T W tid) (tileY1 T W H tid) (y * W + x) with
      | false => rfl
      | true =>
        exact absurd (cover_forces_tid hT hKx (by omega) hx hxW hcc) hne)]
  rw [buildBins_eq_filter]
  rw [binPaint_filter P W (tileX0 T W (pixTid T W x y)) (tileY0 T W (pixTid T W x y))
    (tileX1 T W (pixTid T W x y)) (tileY1 T W H (pixTid T W x y)) (y * W + x)
    (fun j => decide (pixTid T W x y ∈
      binBoxTids T W H (px P j) (py P j) (pr P j)))
    (List.range P.n) none
    (by
      intro j hj hp
      cases hcc : circleCovers W (px P j) (py P j) (pr P j) (tileX0 T W (pixTid T W x y))
          (tileY0 T W (pixTid T W x y)) (tileX1 T W (pixTid T W x y))
          (tileY1 T W H (pixTid T W x y)) (y * W + x) with
      | false => rfl
      | true =>
        exfalso
        have hcond := hcc
        rw [hcovloc j] at hcond
        have hcond2 := of_decide_eq_true hcond
        obtain ⟨h1, h2, h3, h4⟩ := hcond2
        have hr : 0 ≤ pr P j := by omega
        have hdx := dxAt_le_r (r := pr P j) (py P j) y hr
        have hdx0 := dxAt_nonneg (pr P j) (py P j) y
        have hbinned : pixTid T W x y ∈
            binBoxTids T W H (px P j) (py P j) (pr P j) :=
          binned_of_intersects hT hW hH hptid x y ho1 ho2 ho3 ho4
            (by omega) (by omega) (by omega) (by omega)
        rw [decide_eq_false_iff_not] at hp
        exact hp hbinned)]
  unfold globalPaint
  exact binPaint_eq_gPaint P W _ _ _ _ (y * W + x) x y (List.range P.n) none
    (fun j hj => hcovloc j)

theorem renderPaint_none (T : Int) (P : ParticlesSOA) {W H : Int} (i : Int)
    (hT : 1 ≤ T) (hW : 1 ≤ W) (hH : 1 ≤ H)
    (hno : ∀ x y : Int, 0 ≤ x → x < W → 0 ≤ y → y < H → i ≠ y * W + x) :
    renderPaint T P W H i = none := by
  have hKx := tilesX_pos hT hW
  unfold renderPaint
  apply paintFold_no_cover
  intro tid htid j hj
  cases hcc : circleCovers W (px P j) (py P j) (pr P j) (tileX0 T W tid) (tileY0 T W tid)
      (tileX1 T W tid) (tileY1 T W H tid) i with
  | false => rfl
  | true =>
    exfalso
    obtain ⟨x, y, hi, ha, hb, hc, hd⟩ := circleCovers_decomp hcc
    have hx0 := tileX0_nonneg (T := T) (W := W) tid hT hKx
    have hy0 := tileY0_nonneg (T := T) (W := W) tid hT hKx
    have hx1 := tileX1_le (T := T) (W := W) tid
    have hy1 := tileY1_le (T := T) (W := W) (H := H) tid
    exact hno x y (by omega) (by omega) (by omega) (by omega) hi

theorem Framebuffer.ext2 {a b : Framebuffer} (hW : a.W = b.W) (hH : a.H = b.H)
    (hpix : ∀ i, a.pix i = b.pix i) : a = b := by
  cases a with
  | mk W1 H1 p1 =>
    cases b with
    | mk W2 H2 p2 =>
      simp only at hW hH hpix
      subst hW
      subst hH
      have : p1 = p2 := funext hpix
      rw [this]

/-- Rendering with any two (positive) tile edges yields identical framebuffers. -/
theorem render_tiled_tile_size_eq (T1 T2 : Int) (P : ParticlesSOA) (fb : Framebuffer)
    (hT1 : 1 ≤ T1) (hT2 : 1 ≤ T2) (hW : 1 ≤ fb.W) (hH : 1 ≤ fb.H) :
    render_tiled T1 P fb = render_tiled T2 P fb := by
  apply Framebuffer.ext2
  · rw [render_tiled_W, render_tiled_W]
  · rw [render_tiled_H, render_tiled_H]
  · intro i
    rw [render_tiled_pix, render_tiled_pix]
    by_cases hdec : ∃ x y : Int, 0 ≤ x ∧ x < fb.W ∧ 0 ≤ y ∧ y < fb.H ∧ i = y * fb.W + x
    · obtain ⟨x, y, h1, h2, h3, h4, rfl⟩ := hdec
      rw [renderPaint_eq_globalPaint T1 P hT1 hW hH h1 h2 h3 h4,
        renderPaint_eq_globalPaint T2 P hT2 hW hH h1 h2 h3 h4]
    · have hno : ∀ x y : Int, 0 ≤ x → x < fb.W → 0 ≤ y → y < fb.H → i ≠ y * fb.W + x :=
        fun x y h1 h2 h3 h4 heq => hdec ⟨x, y, h1, h2, h3, h4, heq⟩
      rw [renderPaint_none T1 P i hT1 hW hH hno, renderPaint_none T2 P i hT2 hW hH hno]

theorem binPaint_some_exists (P : ParticlesSOA) (W x0 y0 x1 y1 i : Int) (bin : List Nat)
    (h : binPaint P W x0 y0 x1 y1 bin none i ≠ none) :
    ∃ j ∈ bin, circleCovers W (px P j) (py P j) (pr P j) x0 y0 x1 y1 i = true := by
  by_contra hc
  push_neg at hc
  apply h
  apply binPaint_no_cover
  intro j hj
  cases hcc : circleCovers W (px P j) (py P j) (pr P j) x0 y0 x1 y1 i with
  | false => rfl
  | true => exact absurd hcc (hc j hj)

/-- Distinct tiles write disjoint flat-index sets, so their rasterization steps
commute. -/
theorem tileStep_comm (T : Int) (P : ParticlesSOA) (W H : Int) (bins : Nat → List Nat)
    (hT : 1 ≤ T) (hK : 0 < tilesX T W) (hWpos : 0 < W) :
    ∀ (fb : Framebuffer), fb.W = W → ∀ (a b : Nat),
      tileStep T P W H bins (tileStep T P W H bins fb a) b =
        tileStep T P W H bins (tileStep T P W H bins fb b) a := by
  intro fb hfb a b
  subst hfb
  by_cases hab : a = b
  · subst hab
    rfl
  apply Framebuffer.ext2
  · rw [tileStep_W, tileStep_W, tileStep_W, tileStep_W]
  · rw [tileStep_H, tileStep_H, tileStep_H, tileStep_H]
  · intro i
    rw [tileStep_pix, tileStep_pix, tileStep_pix, tileStep_pix, tileStep_W, tileStep_W]
    have hnotboth :
        binPaint P fb.W (tileX0 T fb.W a) (tileY0 T fb.W a) (tileX1 T fb.W a)
          (tileY1 T fb.W H a) (bins a) none i = none ∨
        binPaint P fb.W (tileX0 T fb.W b) (tileY0 T fb.W b) (tileX1 T fb.W b)
          (tileY1 T fb.W H b) (bins b) none i = none := by
      by_contra hc
      push_neg at hc
      obtain ⟨ja, hja, hcova⟩ := binPaint_some_exists P fb.W _ _ _ _ i (bins a) hc.1
      obtain ⟨jb, hjb, hcovb⟩ := binPaint_some_exists P fb.W _ _ _ _ i (bins b) hc.2
      obtain ⟨x, y, hi, ha1, ha2, ha3, ha4⟩ := circleCovers_decomp hcova
      have hx0 := tileX0_nonneg (T := T) (W := fb.W) a hT hK
      have hx1 := tileX1_le (T := T) (W := fb.W) a
      have hxa : 0 ≤ x := by omega
      have hxb : x < fb.W := by omega
      rw [hi] at hcova hcovb
      have hforce1 := cover_forces_tid (H := H) hT hK hWpos hxa hxb hcova
      have hforce2 := cover_forces_tid (H := H) hT hK hWpos hxa hxb hcovb
      exact hab (hforce1.trans hforce2.symm)
    rcases hnotboth with hn | hn <;> rw [hn] <;> simp

theorem foldl_tileStep_perm (T : Int) (P : ParticlesSOA) (W H : Int)
    (bins : Nat → List Nat) (hT : 1 ≤ T) (hK : 0 < tilesX T W) (hWpos : 0 < W) :
    ∀ {l1 l2 : List Nat}, l1.Perm l2 → ∀ (fb : Framebuffer), fb.W = W →
      l1.foldl (tileStep T P W H bins) fb = l2.foldl (tileStep T P W H bins) fb := by
  intro l1 l2 hperm
  induction hperm with
  | nil => intro fb _; rfl
  | cons t htl ih =>
    intro fb hfb
    rw [List.foldl_cons, List.foldl_cons]
    exact ih (tileStep T P W H bins fb t) (by rw [tileStep_W]; exact hfb)
  | swap t1 t2 l =>
    intro fb hfb
    rw [List.foldl_cons, List.foldl_cons, List.foldl_cons, List.foldl_cons]
    rw [tileStep_comm T P W H bins hT hK hWpos fb hfb t2 t1]
  | trans h12 h23 ih1 ih2 =>
    intro fb hfb
    rw [ih1 fb hfb, ih2 fb hfb]

/-- Processing the tiles in any permutation of the ascending tile order produces the
same framebuffer. -/
theorem renderOrder_perm (T : Int) (P : ParticlesSOA) (fb : Framebuffer)
    (order : List Nat) (hT : 1 ≤ T) (hW : 1 ≤ fb.W) (hH : 1 ≤ fb.H)
    (hperm : order.Perm (List.range (totalTiles T fb.W fb.H))) :
    renderOrder T P fb order = render_tiled T P fb := by
  unfold render_tiled renderOrder
  exact foldl_tileStep_perm T P fb.W fb.H (buildBins T P fb.W fb.H) hT
    (tilesX_pos hT hW) (by omega) hperm fb rfl

theorem mem_circleTrace {W cx cy r x0 y0 x1 y1 i : Int} :
    i ∈ circleTrace W cx cy r x0 y0 x1 y1 ↔
      circleCovers W cx cy r x0 y0 x1 y1 i = true := by
  unfold circleTrace spanIdx
  rw [circleCovers_iff]
  constructor
  · intro h
    obtain ⟨yy, hyy, hmem⟩ := List.mem_flatMap.mp h
    obtain ⟨xx, hxx, hix⟩ := List.mem_map.mp hmem
    rcases mem_intRange.mp hyy with ⟨h1, h2⟩
    rcases mem_intRange.mp hxx with ⟨h3, h4⟩
    exact ⟨yy, h1, h2, rowCovers_intro hix.symm (by omega) (by omega)⟩
  · rintro ⟨yy, h1, h2, hrow⟩
    obtain ⟨x, hx, hxa, hxb⟩ := rowCovers_decomp hrow
    exact List.mem_flatMap.mpr ⟨yy, mem_intRange.mpr ⟨h1, h2⟩,
      List.mem_map.mpr ⟨x, mem_intRange.mpr ⟨by omega, by omega⟩, hx.symm⟩⟩

theorem renderTrace_notin_paint {T : Int} {P : ParticlesSOA} {W H i : Int}
    (hnot : i ∉ renderTrace T P W H) : renderPaint T P W H i = none := by
  unfold renderPaint
  apply paintFold_no_cover
  intro tid htid j hj
  cases hcc : circleCovers W (px P j) (py P j) (pr P j) (tileX0 T W tid) (tileY0 T W tid)
      (tileX1 T W tid) (tileY1 T W H tid) i with
  | false => rfl
  | true =>
    exfalso
    apply hnot
    unfold renderTrace tileTrace
    exact List.mem_flatMap.mpr ⟨tid, htid,
      List.mem_flatMap.mpr ⟨j, hj, mem_circleTrace.mpr hcc⟩⟩

/-- A flat index outside the write trace keeps its pre-pass value. -/
theorem render_unchanged_off_trace (T : Int) (P : ParticlesSOA) (fb : Framebuffer)
    {i : Int} (hnot : i ∉ renderTrace T P fb.W fb.H) :
    (render_tiled T P fb).pix i = fb.pix i := by
  rw [render_tiled_pix, renderTrace_notin_paint hnot]
  rfl

/-- Every stored flat index is an in-bounds pixel `y*W + x`. -/
theorem renderTrace_bounds {T W H : Int} (P : ParticlesSOA)
    (hT : 1 ≤ T) (hW : 1 ≤ W) (hH : 1 ≤ H) :
    ∀ i ∈ renderTrace T P W H, ∃ x y : Int,
      0 ≤ x ∧ x < W ∧ 0 ≤ y ∧ y < H ∧ i = y * W + x ∧ 0 ≤ i ∧ i < W * H := by
  intro i hi
  unfold renderTrace at hi
  obtain ⟨tid, htid, hmem⟩ := List.mem_flatMap.mp hi
  unfold tileTrace at hmem
  obtain ⟨j, hj, hic⟩ := List.mem_flatMap.mp hmem
  have hcov := mem_circleTrace.mp hic
  obtain ⟨x, y, hxy, ha, hb, hc, hd⟩ := circleCovers_decomp hcov
  have hKx := tilesX_pos hT hW
  have hx0 := tileX0_nonneg (T := T) (W := W) tid hT hKx
  have hy0 := tileY0_nonneg (T := T) (W := W) tid hT hKx
  have hx1 := tileX1_le (T := T) (W := W) tid
  have hy1 := tileY1_le (T := T) (W := W) (H := H) tid
  have hyW : 0 ≤ y * W := mul_nonneg (by omega) (by omega)
  have hyW2 : y * W ≤ (H - 1) * W := mul_le_mul_of_nonneg_right (by omega) (by omega)
  have hxW : x ≤ W - 1 := by omega
  refine ⟨x, y, by omega, by omega, by omega, by omega, hxy, by omega, ?_⟩
  nlinarith [hyW2, hxW]

/-- With zero particles every bin is empty and the pass leaves the framebuffer
untouched. -/
theorem render_zero_particles (T : Int) (P : ParticlesSOA) (fb : Framebuffer)
    (hn : P.n = 0) : render_tiled T P fb = fb := by
  apply Framebuffer.ext2 (render_tiled_W T P fb) (render_tiled_H T P fb)
  intro i
  rw [render_tiled_pix]
  suffices h : renderPaint T P fb.W fb.H i = none by rw [h]; rfl
  unfold renderPaint
  apply paintFold_no_cover
  intro tid htid j hj
  exfalso
  have := mem_buildBins.mp hj
  omega

theorem getD_eraseIdx_lt {α : Type} (d : α) :
    ∀ (l : List α) (k j : Nat), j < k → (l.eraseIdx k).getD j d = l.getD j d
  | [], _, _, _ => by simp
  | a :: l, 0, j, h => by omega
  | a :: l, k + 1, 0, _ => rfl
  | a :: l, k + 1, j + 1, h => by
    simp only [List.eraseIdx_cons_succ, List.getD_cons_succ]
    exact getD_eraseIdx_lt d l k j (by omega)

theorem getD_eraseIdx_ge {α : Type} (d : α) :
    ∀ (l : List α) (k j : Nat), k ≤ j → (l.eraseIdx k).getD j d = l.getD (j + 1) d
  | [], k, j, _ => by simp
  | a :: l, 0, j, _ => rfl
  | a :: l, k + 1, 0, h => by omega
  | a :: l, k + 1, j + 1, h => by
    simp only [List.eraseIdx_cons_succ, List.getD_cons_succ]
    exact getD_eraseIdx_ge d l k j (by omega)

theorem eraseIdx_n (P : ParticlesSOA) (k : Nat) (hk : k < P.n) :
    (P.eraseIdx k).n = P.n - 1 := by
  unfold ParticlesSOA.eraseIdx ParticlesSOA.n
  simp only [List.length_eraseIdx]
  unfold ParticlesSOA.n at hk
  rw [if_pos hk]

theorem gPaintAux_append (P : ParticlesSOA) (x y : Int) (l1 l2 : List Nat)
    (acc : Option Nat) :
    gPaintAux P x y (l1 ++ l2) acc = gPaintAux P x y l2 (gPaintAux P x y l1 acc) := by
  unfold gPaintAux
  rw [List.foldl_append]

theorem gPaintAux_no_cover (P : ParticlesSOA) (x y : Int) :
    ∀ (l : List Nat) (acc : Option Nat),
      (∀ j ∈ l, coverPix (px P j) (py P j) (pr P j) x y = false) →
      gPaintAux P x y l acc = acc
  | [], acc, _ => rfl
  | j :: l, acc, h => by
    rw [gPaintAux_cons, if_neg (by simp [h j (List.mem_cons_self j l)])]
    exact gPaintAux_no_cover P x y l acc (fun k hk => h k (List.mem_cons_of_mem j hk))

theorem gPaintAux_congr (P Q : ParticlesSOA) (x y : Int) :
    ∀ (l1 l2 : List Nat) (acc : Option Nat),
      l1.map (fun j => (px P j, py P j, pr P j, pcolor P j)) =
        l2.map (fun j => (px Q j, py Q j, pr Q j, pcolor Q j)) →
      gPaintAux P x y l1 acc = gPaintAux Q x y l2 acc
  | [], [], acc, _ => rfl
  | [], j :: l2, acc, h => by simp at h
  | j :: l1, [], acc, h => by simp at h
  | j1 :: l1, j2 :: l2, acc, h => by
    simp only [List.map_cons, List.cons_eq_cons, Prod.mk.injEq] at h
    obtain ⟨⟨hx, hy, hr, hc⟩, htl⟩ := h
    rw [gPaintAux_cons, gPaintAux_cons, hx, hy, hr, hc]
    exact gPaintAux_congr P Q x y l1 l2 _ htl

/-- Removing a particle whose disc does not cover `(x, y)` leaves the global paint at
`(x, y)` unchanged. -/
theorem globalPaint_eraseIdx (P : ParticlesSOA) (k : Nat) (x y : Int)
    (hk : k < P.n) (hLy : P.y.length = P.n) (hLr : P.r.length = P.n)
    (hLc : P.color.length = P.n)
    (hnocov : coverPix (px P k) (py P k) (pr P k) x y = false) :
    globalPaint (P.eraseIdx k) x y = globalPaint P x y := by
  have hn' := eraseIdx_n P k hk
  have hdata_lt : ∀ j : Nat, j < k →
      (px (P.eraseIdx k) j, py (P.eraseIdx k) j, pr (P.eraseIdx k) j,
        pcolor (P.eraseIdx k) j) = (px P j, py P j, pr P j, pcolor P j) := by
    intro j hj
    unfold px py pr pcolor ParticlesSOA.eraseIdx
    simp only
    rw [getD_eraseIdx_lt 0 P.x k j hj, getD_eraseIdx_lt 0 P.y k j hj,
      getD_eraseIdx_lt 0 P.r k j hj, getD_eraseIdx_lt 0 P.color k j hj]
  have hdata_ge : ∀ j : Nat, k ≤ j →
      (px (P.eraseIdx k) j, py (P.eraseIdx k) j, pr (P.eraseIdx k) j,
        pcolor (P.eraseIdx k) j) = (px P (j + 1), py P (j + 1), pr P (j + 1),
        pcolor P (j + 1)) := by
    intro j hj
    unfold px py pr pcolor ParticlesSOA.eraseIdx
    simp only
    rw [getD_eraseIdx_ge 0 P.x k j hj, getD_eraseIdx_ge 0 P.y k j hj,
      getD_eraseIdx_ge 0 P.r k j hj, getD_eraseIdx_ge 0 P.color k j hj]
  unfold globalPaint
  rw [hn']
  have hsplit1 : List.range P.n =
      (List.range k ++ [k]) ++ (List.range (P.n - 1 - k)).map (fun j => k + 1 + j) := by
    have h := List.range_add (k + 1) (P.n - 1 - k)
    rw [show k + 1 + (P.n - 1 - k) = P.n by omega] at h
    rw [h, List.range_succ]
  have hsplit2 : List.range (P.n - 1) =
      List.range k ++ (List.range (P.n - 1 - k)).map (fun j => k + j) := by
    have h := List.range_add k (P.n - 1 - k)
    rw [show k + (P.n - 1 - k) = P.n - 1 by omega] at h
    rw [h]
  rw [hsplit1, hsplit2, gPaintAux_append, gPaintAux_append, gPaintAux_append]
  have hhead : gPaintAux (P.eraseIdx k) x y (List.range k) none =
      gPaintAux P x y (List.range k) none := by
    apply gPaintAux_congr
    apply List.map_congr_left
    intro j hj
    exact hdata_lt j (List.mem_range.mp hj)
  rw [hhead]
  have hmid : gPaintAux P x y [k] (gPaintAux P x y (List.range k) none) =
      gPaintAux P x y (List.range k) none := by
    apply gPaintAux_no_cover
    intro j hj
    rw [List.mem_singleton.mp hj]
    exact hnocov
  rw [hmid]
  apply gPaintAux_congr
  rw [List.map_map, List.map_map]
  apply List.map_congr_left
  intro j hj
  have hj2 := List.mem_range.mp hj
  have h1 := hdata_ge (k + j) (by omega)
  simp only [Function.comp]
  rw [h1]
  rw [show k + j + 1 = k + 1 + j by omega]

/-- `globalPaint` is the color of the highest-index covering particle. -/
theorem globalPaint_last (P : ParticlesSOA) (x y : Int) {j : Nat} (hj : j < P.n)
    (hcov : coverPix (px P j) (py P j) (pr P j) x y = true)
    (hafter : ∀ k : Nat, j < k → k < P.n →
      coverPix (px P k) (py P k) (pr P k) x y = false) :
    globalPaint P x y = some (pcolor P j) := by
  unfold globalPaint
  have hsplit : List.range P.n =
      (List.range j ++ [j]) ++ (List.range (P.n - 1 - j)).map (fun k => j + 1 + k) := by
    have h := List.range_add (j + 1) (P.n - 1 - j)
    rw [show j + 1 + (P.n - 1 - j) = P.n by omega] at h
    rw [h, List.range_succ]
  rw [hsplit, gPaintAux_append, gPaintAux_append]
  have hmid : gPaintAux P x y [j] (gPaintAux P x y (List.range j) none) =
      some (pcolor P j) := by
    rw [show gPaintAux P x y [j] (gPaintAux P x y (List.range j) none) =
      if coverPix (px P j) (py P j) (pr P j) x y then some (pcolor P j)
      else gPaintAux P x y (List.range j) none from rfl]
    rw [if_pos hcov]
  rw [hmid]
  apply gPaintAux_no_cover
  intro k hk
  obtain ⟨kk, hkk, hke⟩ := List.mem_map.mp hk
  have hkk2 := List.mem_range.mp hkk
  rw [← hke]
  exact hafter (j + 1 + kk) (by omega) (by omega)

theorem globalPaint_single (P : ParticlesSOA) (hn : P.n = 1) (x y : Int) :
    globalPaint P x y =
      if coverPix (px P 0) (py P 0) (pr P 0) x y then some (pcolor P 0) else none := by
  unfold globalPaint gPaintAux
  rw [hn]
  rfl

theorem circleCovers_fullrect_false {W H cx cy r i : Int}
    (hno : ∀ x y : Int, 0 ≤ x → x < W → 0 ≤ y → y < H → i ≠ y * W + x) :
    circleCovers W cx cy r 0 0 W H i = false := by
  cases hcc : circleCovers W cx cy r 0 0 W H i with
  | false => rfl
  | true =>
    exfalso
    obtain ⟨x, y, hi, ha, hb, hc, hd⟩ := circleCovers_decomp hcc
    exact hno x y (by omega) (by omega) (by omega) (by omega) hi

/-- A single particle: the tiled pass equals one scanline fill clipped only to the
framebuffer itself. -/
theorem render_single_eq_fullfill (P : ParticlesSOA) (fb : Framebuffer)
    (hn : P.n = 1) (hW : 1 ≤ fb.W) (hH : 1 ≤ fb.H) :
    render_circles_tiled_omp P fb =
      draw_circle_clipped_to_tile fb (px P 0) (py P 0) (pr P 0) (pcolor P 0)
        0 0 fb.W fb.H := by
  unfold render_circles_tiled_omp
  apply Framebuffer.ext2
  · rw [render_tiled_W, draw_circle_W]
  · rw [render_tiled_H, draw_circle_H]
  · intro i
    rw [render_tiled_pix, draw_circle_pix]
    by_cases hdec : ∃ x y : Int, 0 ≤ x ∧ x < fb.W ∧ 0 ≤ y ∧ y < fb.H ∧ i = y * fb.W + x
    · obtain ⟨x, y, h1, h2, h3, h4, rfl⟩ := hdec
      rw [renderPaint_eq_globalPaint TILE P (by decide) hW hH h1 h2 h3 h4,
        globalPaint_single P hn x y]
      have hcc : circleCovers fb.W (px P 0) (py P 0) (pr P 0) 0 0 fb.W fb.H
          (y * fb.W + x) = coverPix (px P 0) (py P 0) (pr P 0) x y := by
        apply bool_eq_of_iff
        rw [circleCovers_pix_iff (show (0:Int) < fb.W by omega) (le_refl 0)
          (le_refl fb.W) h1 h2]
        unfold coverPix
        rw [decide_eq_true_eq]
        constructor
        · rintro ⟨k1, k2, k3, k4⟩
          exact ⟨by omega, by omega, by omega, by omega⟩
        · rintro ⟨k1, k2, k3, k4⟩
          exact ⟨by omega, by omega, by omega, by omega⟩
      rw [hcc]
      cases hcp : coverPix (px P 0) (py P 0) (pr P 0) x y <;> simp
    · have hno : ∀ x y : Int, 0 ≤ x → x < fb.W → 0 ≤ y → y < fb.H → i ≠ y * fb.W + x :=
        fun x y h1 h2 h3 h4 heq => hdec ⟨x, y, h1, h2, h3, h4, heq⟩
      rw [renderPaint_none TILE P i (by decide) hW hH hno, circleCovers_fullrect_false hno]
      rfl

theorem square_offscreen_cases {W H cx cy r : Int} (hW : 1 ≤ W) (hH : 1 ≤ H)
    (hno : ∀ x y : Int, 0 ≤ x → x < W → 0 ≤ y → y < H →
      ¬(cx - r ≤ x ∧ x ≤ cx + r ∧ cy - r ≤ y ∧ y ≤ cy + r)) :
    cx + r < 0 ∨ W ≤ cx - r ∨ cy + r < 0 ∨ H ≤ cy - r ∨ r < 0 := by
  by_contra hc
  push_neg at hc
  obtain ⟨h1, h2, h3, h4, h5⟩ := hc
  exact hno (max 0 (cx - r)) (max 0 (cy - r)) (by omega) (by omega) (by omega) (by omega)
    ⟨by omega, by omega, by omega, by omega⟩

theorem coverPix_false_offscreen {W H cx cy r x y : Int}
    (hx : 0 ≤ x) (hxW : x < W) (hy : 0 ≤ y) (hyH : y < H)
    (hoff : cx + r < 0 ∨ W ≤ cx - r ∨ cy + r < 0 ∨ H ≤ cy - r ∨ r < 0) :
    coverPix cx cy r x y = false := by
  cases hcc : coverPix cx cy r x y with
  | false => rfl
  | true =>
    exfalso
    unfold coverPix at hcc
    obtain ⟨h1, h2, h3, h4⟩ := of_decide_eq_true hcc
    have hr : 0 ≤ r := by omega
    have hdx := dxAt_le_r (r := r) cy y hr
    have hdx0 := dxAt_nonneg r cy y
    rcases hoff with h | h | h | h | h <;> omega

/-- Removing a particle whose bounding square misses the framebuffer leaves the pass's
output unchanged. -/
theorem render_eraseIdx_eq (P : ParticlesSOA) (fb : Framebuffer) (k : Nat)
    (hW : 1 ≤ fb.W) (hH : 1 ≤ fb.H) (hk : k < P.n)
    (hLy : P.y.length = P.n) (hLr : P.r.length = P.n) (hLc : P.color.length = P.n)
    (hno : ∀ x y : Int, 0 ≤ x → x < fb.W → 0 ≤ y → y < fb.H →
      ¬(px P k - pr P k ≤ x ∧ x ≤ px P k + pr P k ∧
        py P k - pr P k ≤ y ∧ y ≤ py P k + pr P k)) :
    render_circles_tiled_omp (P.eraseIdx k) fb = render_circles_tiled_omp P fb := by
  have hoff := square_offscreen_cases hW hH hno
  unfold render_circles_tiled_omp
  apply Framebuffer.ext2
  · rw [render_tiled_W, render_tiled_W]
  · rw [render_tiled_H, render_tiled_H]
  · intro i
    rw [render_tiled_pix, render_tiled_pix]
    by_cases hdec : ∃ x y : Int, 0 ≤ x ∧ x < fb.W ∧ 0 ≤ y ∧ y < fb.H ∧ i = y * fb.W + x
    · obtain ⟨x, y, h1, h2, h3, h4, rfl⟩ := hdec
      rw [renderPaint_eq_globalPaint TILE (P.eraseIdx k) (by decide) hW hH h1 h2 h3 h4,
        renderPaint_eq_globalPaint TILE P (by decide) hW hH h1 h2 h3 h4,
        globalPaint_eraseIdx P k x y hk hLy hLr hLc
          (coverPix_false_offscreen h1 h2 h3 h4 hoff)]
    · have hno2 : ∀ x y : Int, 0 ≤ x → x < fb.W → 0 ≤ y → y < fb.H → i ≠ y * fb.W + x :=
        fun x y h1 h2 h3 h4 heq => hdec ⟨x, y, h1, h2, h3, h4, heq⟩
      rw [renderPaint_none TILE (P.eraseIdx k) i (by decide) hW hH hno2,
        renderPaint_none TILE P i (by decide) hW hH hno2]

/-- The pass on a single particle paints exactly its integer disc (clipped to the
framebuffer) over the previous contents. -/
theorem render_single_pix (P : ParticlesSOA) (fb : Framebuffer) (hn : P.n = 1)
    (hW : 1 ≤ fb.W) (hH : 1 ≤ fb.H) (x y : Int) (h1 : 0 ≤ x) (h2 : x < fb.W)
    (h3 : 0 ≤ y) (h4 : y < fb.H) (hr : 0 ≤ pr P 0) :
    (render_circles_tiled_omp P fb).pix (y * fb.W + x) =
      if (x - px P 0) * (x - px P 0) + (y - py P 0) * (y - py P 0) ≤ pr P 0 * pr P 0
      then pcolor P 0 else fb.pix (y * fb.W + x) := by
  unfold render_circles_tiled_omp
  rw [render_tiled_pix, renderPaint_eq_globalPaint TILE P (by decide) hW hH h1 h2 h3 h4,
    globalPaint_single P hn x y]
  by_cases hdisc : (x - px P 0) * (x - px P 0) + (y - py P 0) * (y - py P 0) ≤
      pr P 0 * pr P 0
  · rw [if_pos hdisc]
    have hcp : coverPix (px P 0) (py P 0) (pr P 0) x y = true := by
      unfold coverPix
      apply decide_eq_true
      exact (span_iff_disc hr).mpr hdisc
    rw [hcp]
    rfl
  · rw [if_neg hdisc]
    have hcp : coverPix (px P 0) (py P 0) (pr P 0) x y = false := by
      cases hc : coverPix (px P 0) (py P 0) (pr P 0) x y with
      | false => rfl
      | true =>
        exfalso
        unfold coverPix at hc
        exact hdisc ((span_iff_disc hr).mp (of_decide_eq_true hc))
    rw [hcp]
    rfl

/-- C1 counterexample: the particle at `(-5, 5)` with radius `2` has bounding square
`[-7,-3] × [3,7]`, which misses the framebuffer `[0,64) × [0,64)` entirely
(`cx + r = -3 < 0`), yet the binning pass places index `0` into tile `(0,0)`'s bin:
C truncating division sends `(cx+r)/TILE = -3/32` to `0`, not `-1`. So the claim that
such a particle lands in zero bins (and that no non-intersecting tile receives it) is
false on the code. -/
theorem C1_counterexample :
    buildBins TILE particleC1 64 64 0 = [0] ∧ (-5 : Int) + 2 < 0 := by
  constructor
  · decide
  · decide

/-- C1 (amended): binning places particle `i` into exactly the tiles `(tx, ty)` with
`max(0, (cx-r)/T) ≤ tx ≤ min(tiles_x-1, (cx+r)/T)` and similarly for `ty` (C truncating
division); this range contains every tile whose rectangle intersects the bounding
square `[cx-r, cx+r] × [cy-r, cy+r]` (completeness holds unconditionally), but at the
framebuffer edges it may also contain boundary tiles the square does not intersect
(e.g. a square entirely left of the framebuffer by less than one tile). -/
theorem C1_binning_amended (P : ParticlesSOA) (W H : Int) (i tid : Nat)
    (hW : 1 ≤ W) (hH : 1 ≤ H) (htid : tid < totalTiles TILE W H) :
    (i ∈ buildBins TILE P W H tid ↔
      (i < P.n ∧
       minTileIdx TILE (px P i) (pr P i) ≤ tileTx TILE W tid ∧
       tileTx TILE W tid ≤ maxTileIdx TILE W (px P i) (pr P i) ∧
       minTileIdx TILE (py P i) (pr P i) ≤ tileTy TILE W tid ∧
       tileTy TILE W tid ≤ maxTileIdx TILE H (py P i) (pr P i))) ∧
    (∀ x y : Int,
      tileX0 TILE W tid ≤ x → x < tileX1 TILE W tid →
      tileY0 TILE W tid ≤ y → y < tileY1 TILE W H tid →
      px P i - pr P i ≤ x → x ≤ px P i + pr P i →
      py P i - pr P i ≤ y → y ≤ py P i + pr P i →
      i < P.n → i ∈ buildBins TILE P W H tid) := by
  have hK := tilesX_pos (show (1:Int) ≤ TILE by decide) hW
  constructor
  · rw [mem_buildBins, mem_binBoxTids hK]
  · intro x y hx1 hx2 hy1 hy2 hb1 hb2 hb3 hb4 hn
    exact mem_buildBins.mpr ⟨hn,
      binned_of_intersects (show (1:Int) ≤ TILE by decide) hW hH htid x y
        hx1 hx2 hy1 hy2 hb1 hb2 hb3 hb4⟩

theorem C1_binning_amended_witness :
    (1 : Int) ≤ 64 ∧ (0 : Nat) < totalTiles TILE 64 64 ∧
    ((0 ∈ buildBins TILE particleSmall 64 64 0 ↔
      (0 < particleSmall.n ∧
       minTileIdx TILE (px particleSmall 0) (pr particleSmall 0) ≤ tileTx TILE 64 0 ∧
       tileTx TILE 64 0 ≤ maxTileIdx TILE 64 (px particleSmall 0) (pr particleSmall 0) ∧
       minTileIdx TILE (py particleSmall 0) (pr particleSmall 0) ≤ tileTy TILE 64 0 ∧
       tileTy TILE 64 0 ≤ maxTileIdx TILE 64 (py particleSmall 0) (pr particleSmall 0))) ∧
     (∀ x y : Int,
      tileX0 TILE 64 0 ≤ x → x < tileX1 TILE 64 0 →
      tileY0 TILE 64 0 ≤ y → y < tileY1 TILE 64 64 0 →
      px particleSmall 0 - pr particleSmall 0 ≤ x → x ≤ px particleSmall 0 + pr particleSmall 0 →
      py particleSmall 0 - pr particleSmall 0 ≤ y → y ≤ py particleSmall 0 + pr particleSmall 0 →
      0 < particleSmall.n → 0 ∈ buildBins TILE particleSmall 64 64 0)) :=
  ⟨by decide, by decide,
    C1_binning_amended particleSmall 64 64 0 0 (by decide) (by decide) (by decide)⟩

/-- C2: write safety. Every pixel store the pass issues (collected in `renderTrace`,
which lists exactly the flat indices the clipped span fills write) is of the form
`y*W + x` with `0 ≤ x < W`, `0 ≤ y < H`, and its flat index is below `W*H`: each span
is clamped to its tile rectangle, which is clamped to the framebuffer. -/
theorem C2_write_safety (P : ParticlesSOA) (W H : Int) (hW : 1 ≤ W) (hH : 1 ≤ H) :
    ∀ i ∈ renderTrace TILE P W H, ∃ x y : Int,
      0 ≤ x ∧ x < W ∧ 0 ≤ y ∧ y < H ∧ i = y * W + x ∧ 0 ≤ i ∧ i < W * H :=
  renderTrace_bounds P (by decide) hW hH

theorem C2_write_safety_witness :
    (1 : Int) ≤ 64 ∧ (650 : Int) ∈ renderTrace TILE particleSmall 64 64 ∧
    (∃ x y : Int, 0 ≤ x ∧ x < 64 ∧ 0 ≤ y ∧ y < 64 ∧ (650 : Int) = y * 64 + x ∧
      (0 : Int) ≤ 650 ∧ (650 : Int) < 64 * 64) :=
  ⟨by decide, by decide,
    C2_write_safety particleSmall 64 64 (by decide) (by decide) 650 (by decide)⟩

/-- C3: the tile rectangles are pairwise disjoint, their union is exactly
`[0,W) × [0,H)`, and rasterizing the tiles in any permutation of the ascending tile-id
order yields the same final framebuffer. -/
theorem C3_partition_order_independence (T : Int) (P : ParticlesSOA) (fb : Framebuffer)
    (hT : 1 ≤ T) (hW : 1 ≤ fb.W) (hH : 1 ≤ fb.H) :
    (∀ tid1 tid2 : Nat, tid1 < totalTiles T fb.W fb.H → tid2 < totalTiles T fb.W fb.H →
      tid1 ≠ tid2 → ∀ x y : Int,
        ¬((tileX0 T fb.W tid1 ≤ x ∧ x < tileX1 T fb.W tid1 ∧
           tileY0 T fb.W tid1 ≤ y ∧ y < tileY1 T fb.W fb.H tid1) ∧
          (tileX0 T fb.W tid2 ≤ x ∧ x < tileX1 T fb.W tid2 ∧
           tileY0 T fb.W tid2 ≤ y ∧ y < tileY1 T fb.W fb.H tid2))) ∧
    (∀ x y : Int, (0 ≤ x ∧ x < fb.W ∧ 0 ≤ y ∧ y < fb.H) ↔
      (∃ tid : Nat, tid < totalTiles T fb.W fb.H ∧
        tileX0 T fb.W tid ≤ x ∧ x < tileX1 T fb.W tid ∧
        tileY0 T fb.W tid ≤ y ∧ y < tileY1 T fb.W fb.H tid)) ∧
    (∀ order : List Nat, order.Perm (List.range (totalTiles T fb.W fb.H)) →
      renderOrder T P fb order = render_tiled T P fb) := by
  have hK := tilesX_pos hT hW
  refine ⟨?_, ?_, ?_⟩
  · rintro tid1 tid2 htid1 htid2 hne x y ⟨⟨a1, a2, a3, a4⟩, ⟨b1, b2, b3, b4⟩⟩
    have h1 := tile_unique (H := fb.H) hT hK a1 a2 a3 a4
    have h2 := tile_unique (H := fb.H) hT hK b1 b2 b3 b4
    exact hne (h1.trans h2.symm)
  · intro x y
    constructor
    · rintro ⟨h1, h2, h3, h4⟩
      obtain ⟨hlt, _, _⟩ := pixTid_spec (H := fb.H) hT hW hH h1 h2 h3 h4
      obtain ⟨o1, o2, o3, o4⟩ := pix_in_own_tile (H := fb.H) hT hW hH h1 h2 h3 h4
      exact ⟨pixTid T fb.W x y, hlt, o1, o2, o3, o4⟩
    · rintro ⟨tid, htid, h1, h2, h3, h4⟩
      have hx0 := tileX0_nonneg (T := T) (W := fb.W) tid hT hK
      have hy0 := tileY0_nonneg (T := T) (W := fb.W) tid hT hK
      have hx1 := tileX1_le (T := T) (W := fb.W) tid
      have hy1 := tileY1_le (T := T) (W := fb.W) (H := fb.H) tid
      exact ⟨by omega, by omega, by omega, by omega⟩
  · intro order hperm
    exact renderOrder_perm T P fb order hT hW hH hperm

theorem C3_partition_order_independence_witness :
    (1 : Int) ≤ 32 ∧ (1 : Int) ≤ fb33.W ∧ (1 : Int) ≤ fb33.H ∧
    [3, 0, 2, 1].Perm (List.range (totalTiles 32 fb33.W fb33.H)) ∧
    renderOrder 32 particleSmall fb33 [3, 0, 2, 1] = render_tiled 32 particleSmall fb33 :=
  ⟨by decide, by decide, by decide, by decide,
    (C3_partition_order_independence 32 particleSmall fb33
      (by decide) (by decide) (by decide)).2.2 [3, 0, 2, 1] (by decide)⟩

/-- C5: `draw_circle_clipped_to_tile` with a tile rectangle contained in the
framebuffer and `r ≥ 0` sets to `c` exactly the pixels of the rectangle whose integer
disc condition `(x-cx)² + (y-cy)² ≤ r²` holds (the per-row span bound
`|x-cx| ≤ floor(sqrt(r²-dy²))` is exactly the disc condition for integer pixels), and
leaves every other framebuffer pixel unchanged. -/
theorem C5_scanline_fill_exact (fb : Framebuffer) (cx cy r : Int) (c : Nat)
    (x0 y0 x1 y1 x y : Int)
    (hx0 : 0 ≤ x0) (hx1 : x1 ≤ fb.W) (hy0 : 0 ≤ y0) (hy1 : y1 ≤ fb.H)
    (hr : 0 ≤ r) (hx : 0 ≤ x) (hxW : x < fb.W) (hy : 0 ≤ y) (hyH : y < fb.H) :
    (draw_circle_clipped_to_tile fb cx cy r c x0 y0 x1 y1).pix (y * fb.W + x) =
      if x0 ≤ x ∧ x ≤ x1 - 1 ∧ y0 ≤ y ∧ y ≤ y1 - 1 ∧
         (x - cx) * (x - cx) + (y - cy) * (y - cy) ≤ r * r
      then c else fb.pix (y * fb.W + x) := by
  rw [draw_circle_pix]
  by_cases hcond : x0 ≤ x ∧ x ≤ x1 - 1 ∧ y0 ≤ y ∧ y ≤ y1 - 1 ∧
      (x - cx) * (x - cx) + (y - cy) * (y - cy) ≤ r * r
  · rw [if_pos hcond]
    obtain ⟨k1, k2, k3, k4, k5⟩ := hcond
    obtain ⟨s1, s2, s3, s4⟩ := (span_iff_disc hr).mpr k5
    have hcc : circleCovers fb.W cx cy r x0 y0 x1 y1 (y * fb.W + x) = true := by
      apply (circleCovers_pix_iff (show (0:Int) < fb.W by omega) hx0 hx1 hx hxW).mpr
      exact ⟨by omega, by omega, by omega, by omega⟩
    rw [hcc]
    rfl
  · rw [if_neg hcond]
    have hcc : circleCovers fb.W cx cy r x0 y0 x1 y1 (y * fb.W + x) = false := by
      cases hc : circleCovers fb.W cx cy r x0 y0 x1 y1 (y * fb.W + x) with
      | false => rfl
      | true =>
        exfalso
        obtain ⟨k1, k2, k3, k4⟩ :=
          (circleCovers_pix_iff (show (0:Int) < fb.W by omega) hx0 hx1 hx hxW).mp hc
        have hspan : cy - r ≤ y ∧ y ≤ cy + r ∧
            cx - dxAt r cy y ≤ x ∧ x ≤ cx + dxAt r cy y :=
          ⟨by omega, by omega, by omega, by omega⟩
        have hdisc := (span_iff_disc hr).mp hspan
        exact hcond ⟨by omega, by omega, by omega, by omega, hdisc⟩
    rw [hcc]
    rfl

theorem C5_scanline_fill_exact_witness :
    (0 : Int) ≤ 0 ∧ (32 : Int) ≤ fb64.W ∧ (0 : Int) ≤ 2 ∧ (10 : Int) < fb64.W ∧
    (draw_circle_clipped_to_tile fb64 10 10 2 5 0 0 32 32).pix (10 * fb64.W + 10) =
      (if (0:Int) ≤ 10 ∧ (10:Int) ≤ 32 - 1 ∧ (0:Int) ≤ 10 ∧ (10:Int) ≤ 32 - 1 ∧
          ((10:Int) - 10) * (10 - 10) + ((10:Int) - 10) * (10 - 10) ≤ 2 * 2
       then 5 else fb64.pix (10 * fb64.W + 10)) :=
  ⟨by decide, by decide, by decide, by decide,
    C5_scanline_fill_exact fb64 10 10 2 5 0 0 32 32 10 10
      (by decide) (by decide) (by decide) (by decide) (by decide)
      (by decide) (by decide) (by decide) (by decide)⟩

/-- C10: after the binning pass, every tile's bin is strictly increasing in particle
index (it is a filter of `0, 1, ..., n-1` in order), hence duplicate-free: no particle
is rasterized twice into the same tile. -/
theorem C10_bins_strictly_increasing (T : Int) (P : ParticlesSOA) (W H : Int)
    (tid : Nat) :
    List.Pairwise (· < ·) (buildBins T P W H tid) ∧ (buildBins T P W H tid).Nodup :=
  ⟨buildBins_pairwise T P W H tid,
    List.Pairwise.imp (fun h => Nat.ne_of_lt h) (buildBins_pairwise T P W H tid)⟩

/-- C4: tiled rendering refines the untiled reference. (i) A single particle fully
inside one tile renders pixel-identically to one scanline fill clipped only by the
framebuffer; (ii) the pass with any two (positive) tile edges produces identical
final pixel buffers; (iii) the particle at `(31,16)` with radius `10` (tile edge 32,
64×32 framebuffer) is binned into both tile `(0,0)` and tile `(1,0)`, and the
rendered result is the exact clipped disc — no missing and no doubly-painted pixel at
the `x = 32` seam. -/
theorem C4_tiled_refines_untiled :
    (∀ (P : ParticlesSOA) (fb : Framebuffer), P.n = 1 → 1 ≤ fb.W → 1 ≤ fb.H →
      (∃ tid : Nat, tid < totalTiles TILE fb.W fb.H ∧
        tileX0 TILE fb.W tid ≤ px P 0 - pr P 0 ∧
        px P 0 + pr P 0 < tileX1 TILE fb.W tid ∧
        tileY0 TILE fb.W tid ≤ py P 0 - pr P 0 ∧
        py P 0 + pr P 0 < tileY1 TILE fb.W fb.H tid) →
      render_circles_tiled_omp P fb =
        draw_circle_clipped_to_tile fb (px P 0) (py P 0) (pr P 0) (pcolor P 0)
          0 0 fb.W fb.H) ∧
    (∀ (T1 T2 : Int) (P : ParticlesSOA) (fb : Framebuffer),
      1 ≤ T1 → 1 ≤ T2 → 1 ≤ fb.W → 1 ≤ fb.H →
      render_tiled T1 P fb = render_tiled T2 P fb) ∧
    (buildBins TILE particleSeam 64 32 0 = [0] ∧
     buildBins TILE particleSeam 64 32 1 = [0] ∧
     ∀ x y : Int, 0 ≤ x → x < 64 → 0 ≤ y → y < 32 →
       (render_circles_tiled_omp particleSeam fb6432).pix (y * 64 + x) =
         if (x - 31) * (x - 31) + (y - 16) * (y - 16) ≤ 100 then 7 else 0) := by
  refine ⟨?_, ?_, ?_, ?_, ?_⟩
  · intro P fb hn hW hH _
    exact render_single_eq_fullfill P fb hn hW hH
  · intro T1 T2 P fb hT1 hT2 hW hH
    exact render_tiled_tile_size_eq T1 T2 P fb hT1 hT2 hW hH
  · decide
  · decide
  · intro x y h1 h2 h3 h4
    exact render_single_pix particleSeam fb6432 rfl (by decide) (by decide) x y
      h1 h2 h3 h4 (by decide)

theorem C4_tiled_refines_untiled_witness :
    (render_circles_tiled_omp particleSmall fb64 =
      draw_circle_clipped_to_tile fb64 (px particleSmall 0) (py particleSmall 0)
        (pr particleSmall 0) (pcolor particleSmall 0) 0 0 fb64.W fb64.H) ∧
    (render_tiled 32 particleSmall fb64 = render_tiled 7 particleSmall fb64) ∧
    ((render_circles_tiled_omp particleSeam fb6432).pix (16 * 64 + 31) =
      if ((31 : Int) - 31) * (31 - 31) + ((16 : Int) - 16) * (16 - 16) ≤ 100
      then 7 else 0) :=
  ⟨C4_tiled_refines_untiled.1 particleSmall fb64 rfl (by decide) (by decide)
      ⟨0, by decide, by decide, by decide, by decide, by decide⟩,
   C4_tiled_refines_untiled.2.1 32 7 particleSmall fb64
      (by decide) (by decide) (by decide) (by decide),
   C4_tiled_refines_untiled.2.2.2.2 31 16 (by decide) (by decide) (by decide) (by decide)⟩

/-- C6: a particle whose bounding square `[cx-r, cx+r] × [cy-r, cy+r]` has empty
intersection with `[0,W) × [0,H)` has no effect: the pass's output equals the output
of the same pass with that particle removed from the input. (The particle may still
be spuriously binned — see C1 — but its clipped spans are empty in every tile.) -/
theorem C6_offscreen_particle_no_effect (P : ParticlesSOA) (fb : Framebuffer) (k : Nat)
    (hW : 1 ≤ fb.W) (hH : 1 ≤ fb.H) (hk : k < P.n)
    (hLy : P.y.length = P.n) (hLr : P.r.length = P.n) (hLc : P.color.length = P.n)
    (hempty : ∀ x y : Int, 0 ≤ x → x < fb.W → 0 ≤ y → y < fb.H →
      ¬(px P k - pr P k ≤ x ∧ x ≤ px P k + pr P k ∧
        py P k - pr P k ≤ y ∧ y ≤ py P k + pr P k)) :
    render_circles_tiled_omp P fb = render_circles_tiled_omp (P.eraseIdx k) fb :=
  (render_eraseIdx_eq P fb k hW hH hk hLy hLr hLc hempty).symm

theorem C6_offscreen_particle_no_effect_witness :
    (1 : Int) ≤ fb64.W ∧ 0 < particlesC6.n ∧
    render_circles_tiled_omp particlesC6 fb64 =
      render_circles_tiled_omp (particlesC6.eraseIdx 0) fb64 :=
  ⟨by decide, by decide,
    C6_offscreen_particle_no_effect particlesC6 fb64 0 (by decide) (by decide)
      (by decide) rfl rfl rfl
      (by
        intro x y h1 h2 h3 h4 hc
        have e1 : px particlesC6 0 = -5 := rfl
        have e2 : py particlesC6 0 = 5 := rfl
        have e3 : pr particlesC6 0 = 2 := rfl
        rw [e1, e2, e3] at hc
        omega)⟩

/-- C7: last-write-wins by ascending particle index. In general, if particle `j`
covers pixel `(x,y)` and no higher-index particle covers it, the final color at that
pixel is `j`'s color. Concretely, with A `(10,10) r=5` red and B `(12,12) r=5` blue
both in tile `(0,0)`'s bin, A-before-B leaves pixel `(12,12)` blue and swapping the
insertion order leaves it red. -/
theorem C7_last_write_wins :
    (∀ (P : ParticlesSOA) (fb : Framebuffer) (x y : Int) (j : Nat),
      1 ≤ fb.W → 1 ≤ fb.H → 0 ≤ x → x < fb.W → 0 ≤ y → y < fb.H →
      j < P.n → coverPix (px P j) (py P j) (pr P j) x y = true →
      (∀ k : Nat, j < k → k < P.n → coverPix (px P k) (py P k) (pr P k) x y = false) →
      (render_circles_tiled_omp P fb).pix (y * fb.W + x) = pcolor P j) ∧
    buildBins TILE particlesAB 64 64 0 = [0, 1] ∧
    (render_circles_tiled_omp particlesAB fb64).pix (12 * 64 + 12) = 4278190335 ∧
    (render_circles_tiled_omp particlesBA fb64).pix (12 * 64 + 12) = 4294901760 := by
  have hgen : ∀ (P : ParticlesSOA) (fb : Framebuffer) (x y : Int) (j : Nat),
      1 ≤ fb.W → 1 ≤ fb.H → 0 ≤ x → x < fb.W → 0 ≤ y → y < fb.H →
      j < P.n → coverPix (px P j) (py P j) (pr P j) x y = true →
      (∀ k : Nat, j < k → k < P.n → coverPix (px P k) (py P k) (pr P k) x y = false) →
      (render_circles_tiled_omp P fb).pix (y * fb.W + x) = pcolor P j := by
    intro P fb x y j hW hH h1 h2 h3 h4 hj hcov hafter
    unfold render_circles_tiled_omp
    rw [render_tiled_pix, renderPaint_eq_globalPaint TILE P (by decide) hW hH h1 h2 h3 h4,
      globalPaint_last P x y hj hcov hafter]
    rfl
  refine ⟨hgen, by decide, ?_, ?_⟩
  · exact hgen particlesAB fb64 12 12 1 (by decide) (by decide) (by decide) (by decide)
      (by decide) (by decide) (by decide) (by decide)
      (by
        intro k hk1 hk2
        have hn : particlesAB.n = 2 := rfl
        omega)
  · exact hgen particlesBA fb64 12 12 1 (by decide) (by decide) (by decide) (by decide)
      (by decide) (by decide) (by decide) (by decide)
      (by
        intro k hk1 hk2
        have hn : particlesBA.n = 2 := rfl
        omega)

theorem C7_last_write_wins_witness :
    (1 : Int) ≤ fb64.W ∧ 1 < particlesAB.n ∧
    coverPix (px particlesAB 1) (py particlesAB 1) (pr particlesAB 1) 12 12 = true ∧
    (render_circles_tiled_omp particlesAB fb64).pix (12 * fb64.W + 12) =
      pcolor particlesAB 1 :=
  ⟨by decide, by decide, by decide,
    C7_last_write_wins.1 particlesAB fb64 12 12 1 (by decide) (by decide) (by decide)
      (by decide) (by decide) (by decide) (by decide) (by decide)
      (by
        intro k hk1 hk2
        have hn : particlesAB.n = 2 := rfl
        omega)⟩

/-- C8 counterexample: the corner pixel `(0,0)` of the 64×64 framebuffer is NOT
painted white by the particle at `(32,32)` with radius `40`: its squared distance to
the center is `32² + 32² = 2048 > 1600 = 40²`, so the scanline for row 0 spans only
columns `[8, 56]` and the corner keeps the background color `0x00000000`. The claim
that every pixel (in particular the four corners) ends up white is false on the
code. -/
theorem C8_counterexample :
    (render_circles_tiled_omp particleC8 fb64).pix 0 ≠ 4294967295 := by
  have h := render_single_pix particleC8 fb64 rfl (by decide) (by decide) 0 0
    (by decide) (by decide) (by decide) (by decide) (by decide)
  rw [show (0 : Int) * fb64.W + 0 = 0 by decide] at h
  rw [if_neg (by decide)] at h
  rw [h]
  decide

/-- C8 (amended): on the 64×64 framebuffer cleared to `0x00000000`, rendering the
single particle at `(32,32)` with radius `40` and color `0xFFFFFFFF` paints white
exactly the pixels with `(x-32)² + (y-32)² ≤ 1600` and leaves the rest black; in
particular the center pixel is white, while the four corner pixels (squared distance
2048) remain `0x00000000` — the disc does not cover the whole canvas. -/
theorem C8_full_canvas_amended :
    ∀ x y : Int, 0 ≤ x → x < 64 → 0 ≤ y → y < 64 →
      (render_circles_tiled_omp particleC8 fb64).pix (y * 64 + x) =
        if (x - 32) * (x - 32) + (y - 32) * (y - 32) ≤ 1600 then 4294967295 else 0 := by
  intro x y h1 h2 h3 h4
  have h := render_single_pix particleC8 fb64 rfl (by decide) (by decide) x y
    h1 h2 h3 h4 (by decide)
  have e1 : px particleC8 0 = 32 := rfl
  have e2 : py particleC8 0 = 32 := rfl
  have e3 : pr particleC8 0 = 40 := rfl
  have e4 : pcolor particleC8 0 = 4294967295 := rfl
  have e5 : fb64.W = (64 : Int) := rfl
  rw [e1, e2, e3, e4, e5] at h
  have e6 : (40 : Int) * 40 = 1600 := by decide
  rw [e6] at h
  have e7 : fb64.pix (y * 64 + x) = 0 := rfl
  rw [e7] at h
  exact h

theorem C8_full_canvas_amended_witness :
    (0 : Int) ≤ 32 ∧ (32 : Int) < 64 ∧
    (render_circles_tiled_omp particleC8 fb64).pix (32 * 64 + 32) =
      (if ((32 : Int) - 32) * (32 - 32) + ((32 : Int) - 32) * (32 - 32) ≤ 1600
       then 4294967295 else 0) :=
  ⟨by decide, by decide,
    C8_full_canvas_amended 32 32 (by decide) (by decide) (by decide) (by decide)⟩

/-- C9: the pass never writes outside the binned particles' clipped scanline spans
(`renderTrace`): any flat index off the trace keeps its pre-pass value, and with zero
particles the framebuffer is returned exactly as it came in (the core performs no
implicit clear). -/
theorem C9_unpainted_pixels_unchanged :
    (∀ (P : ParticlesSOA) (fb : Framebuffer) (i : Int),
      i ∉ renderTrace TILE P fb.W fb.H →
      (render_circles_tiled_omp P fb).pix i = fb.pix i) ∧
    (∀ (P : ParticlesSOA) (fb : Framebuffer), P.n = 0 →
      render_circles_tiled_omp P fb = fb) :=
  ⟨fun P fb i h => render_unchanged_off_trace TILE P fb h,
   fun P fb h => render_zero_particles TILE P fb h⟩

theorem C9_unpainted_pixels_unchanged_witness :
    ((0 : Int) ∉ renderTrace TILE particleSmall fb64.W fb64.H) ∧
    (render_circles_tiled_omp particleSmall fb64).pix 0 = fb64.pix 0 ∧
    particlesNone.n = 0 ∧
    render_circles_tiled_omp particlesNone fb64 = fb64 :=
  ⟨by decide,
   C9_unpainted_pixels_unchanged.1 particleSmall fb64 0 (by decide),
   rfl,
   C9_unpainted_pixels_unchanged.2 particlesNone fb64 rfl⟩
